import Mathlib

set_option maxHeartbeats 1000000

/-!
Verification development for the resumable tree-synchronization engine of
`yuque-dl` (`src/index.ts`).

The TypeScript code is embedded shallowly:

* `KnowledgeBase.Toc` becomes the structure `Toc`; a `type` field that is not a
  string (`typeof item.type !== 'string'`) is modelled as `none`.
* The in-memory `uuidMap` (a JS `Map`) becomes an association list `UMap`;
  `Map.set` prepends and `Map.get` returns the first binding, which has the
  same lookup semantics as overwriting.
* The `while (tempItem)` ancestor walk of the directory branch is translated
  with explicit fuel (`climbO`); `m.length + 1` steps are always enough for a
  terminating walk, because a terminating walk never visits the same key twice.
* The per-article download and the directory creation are effects; the driver
  `main` records them in traces (`fetches`, `mkdirs`) and takes the download
  outcome as an oracle `f : Toc → Bool`.
* `ProgressBar` is not part of the given sources.  Modelled from the spec:
  `updateProgress` appends a durable record only on success, `curr` is the
  number of persisted (success) records, and a run is interrupted iff
  `0 < records < total`.
-/

/-- One entry of the flat knowledge-base tree (`KnowledgeBase.Toc`). -/
structure Toc where
  uuid : String
  parent_uuid : String
  child_uuid : String
  title : String
  type : Option String
  url : String
deriving DecidableEq

/-- The JavaScript `\s` character class (code points matched by `/\s/`). -/
def jsWs (c : Char) : Bool :=
  let n := c.toNat
  n == 9 || n == 10 || n == 11 || n == 12 || n == 13 || n == 32 || n == 160 ||
  n == 0x1680 || (decide (0x2000 ≤ n) && decide (n ≤ 0x200A)) ||
  n == 0x2028 || n == 0x2029 || n == 0x202F || n == 0x205F || n == 0x3000 ||
  n == 0xFEFF

/-- The per-character lower-casing of `item.type.toLocaleLowerCase()` (only the
ASCII letters matter for the comparison against the marker `"title"`). -/
def lowerStr (s : String) : String := ⟨s.data.map Char.toLower⟩

/-- The characters matched by `dirNameReg = /[\\\/:\*\?"<>\|\n\r]/g`. -/
def illegalChar (c : Char) : Bool :=
  c == '\\' || c == '/' || c == ':' || c == '*' || c == '?' || c == '\"' ||
  c == '<' || c == '>' || c == '|' || c == '\n' || c == '\r'

/-- `JS: title.replace(dirNameReg, '_')` acts independently on each character. -/
def replIllegal (c : Char) : Char := if illegalChar c then '_' else c

/-- `JS: .replace(/\s/, '')` removes the first whitespace character, if any. -/
def dropFirstWs : List Char → List Char
  | [] => []
  | c :: cs => if jsWs c then cs else c :: dropFirstWs cs

/-- `title.replace(dirNameReg, '_').replace(/\s/, '')` (the path sanitizer). -/
def sanitize (s : String) : String :=
  ⟨dropFirstWs (s.data.map replIllegal)⟩

/-- The reference transformation stated by the spec, written independently of
`sanitize`: replace every occurrence of each illegal character with an
underscore, then remove at most the first whitespace character of the result
(keep the whitespace-free part before it, drop one character, keep the rest). -/
def sanitizeSpecC6 (s : String) : String :=
  let replaced := s.data.foldr (fun c acc => (if illegalChar c then '_' else c) :: acc) []
  ⟨replaced.takeWhile (fun c => !jsWs c) ++ (replaced.dropWhile (fun c => !jsWs c)).drop 1⟩

/-- One resolved entry (`IProgressItem`). -/
structure ProgressItem where
  path : String
  pathTitleList : List String
  pathIdList : List String
  toc : Toc
deriving DecidableEq

/-- The `uuidMap` resolution map: an association list, first binding wins. -/
abbrev UMap := List (String × ProgressItem)

/-- `uuidMap.get` -/
def uget : UMap → String → Option ProgressItem
  | [], _ => none
  | (k, v) :: m, u => if k = u then some v else uget m u

/-- `uuidMap.set` -/
def uset (m : UMap) (k : String) (v : ProgressItem) : UMap := (k, v) :: m

/-- The `while (tempItem)` ancestor walk, with explicit fuel.  It collects the
sanitized titles and the uuids of the chain root-first (the TS loop `unshift`s
them).  `none` means the fuel ran out (the TS loop would not have stopped yet). -/
def climbO : Nat → UMap → Toc → Option (List String × List String)
  | 0, _, _ => none
  | fu + 1, m, t =>
    match uget m t.parent_uuid with
    | none => some ([sanitize t.title], [t.uuid])
    | some p =>
      match climbO fu m p.toc with
      | none => none
      | some r => some (r.1 ++ [sanitize t.title], r.2 ++ [t.uuid])

/-- The ancestor walk with the always-sufficient fuel `m.length + 1`: a
terminating TS walk never looks up the same key twice (the walk is
deterministic, so a repeated key would loop forever), hence it finds at most
`m.length` entries before the final failing lookup. -/
def climb (m : UMap) (t : Toc) : List String × List String :=
  (climbO (m.length + 1) m t).getD ([], [])

/-- The entry built by the directory branch (lines 156-176 of `index.ts`). -/
def dirEntry (m : UMap) (t : Toc) : ProgressItem :=
  let r := climb m t
  ⟨String.intercalate "/" r.1, r.1, r.2, t⟩

/-- The entry built by the leaf branch (lines 178-196 of `index.ts`): the
parent's lists (empty default when the parent is absent) extended with the
sanitized title plus `.md` and with the node's uuid. -/
def leafEntry (m : UMap) (t : Toc) : ProgressItem :=
  let pre := uget m t.parent_uuid
  let pts := ((pre.map ProgressItem.pathTitleList).getD []) ++ [sanitize t.title ++ ".md"]
  let pis := ((pre.map ProgressItem.pathIdList).getD []) ++ [t.uuid]
  ⟨String.intercalate "/" pts, pts, pis, t⟩

/-- The effect of one loop iteration on the resolution map alone.  This is the
body of the `for` loop of `main`, with the skip test and the classification
`itemType === 'title' || item['child_uuid'] !== ''` / `item.url`. -/
def stepMap (m : UMap) (t : Toc) : UMap :=
  match t.type with
  | none => m
  | some ty =>
    if (uget m t.uuid).isSome then m
    else if lowerStr ty = "title" ∨ t.child_uuid ≠ "" then uset m t.uuid (dirEntry m t)
    else if t.url ≠ "" then uset m t.uuid (leafEntry m t)
    else m

/-- The whole pass over the node list, acting on the resolution map. -/
def processToc (m : UMap) (l : List Toc) : UMap := l.foldl stepMap m

/-- The full orchestrator state of one run: the resolution map, the durable
progress records (modelled from the spec: only successes are persisted), the
failure report (`errArticleInfo` / `errArticleCount`), the attempted-article
counter, and the fetch / directory-creation effect traces. -/
structure RunState where
  map : UMap
  records : List ProgressItem
  errInfo : List ProgressItem
  errCount : Nat
  totalArticleCount : Nat
  fetches : List Toc
  mkdirs : List String
deriving DecidableEq

/-- The body of the `for` loop of `main` with all its effects.  `f t` tells
whether `downloadArticle` succeeds for the node `t`.  On a failed fetch the
node is still inserted into `uuidMap` (line 214) but no record is persisted
(`updateProgress(_, false)` does not append, modelled from the spec); the entry
goes to `errArticleInfo` instead. -/
def stepRun (f : Toc → Bool) (bookPath : String) (s : RunState) (t : Toc) : RunState :=
  match t.type with
  | none => s
  | some ty =>
    if (uget s.map t.uuid).isSome then s
    else if lowerStr ty = "title" ∨ t.child_uuid ≠ "" then
      let e := dirEntry s.map t
      ⟨uset s.map t.uuid e, s.records ++ [e], s.errInfo, s.errCount, s.totalArticleCount,
        s.fetches, s.mkdirs ++ [bookPath ++ "/" ++ e.path]⟩
    else if t.url ≠ "" then
      let e := leafEntry s.map t
      if f t then
        ⟨uset s.map t.uuid e, s.records ++ [e], s.errInfo, s.errCount,
          s.totalArticleCount + 1, s.fetches ++ [t], s.mkdirs⟩
      else
        ⟨uset s.map t.uuid e, s.records, s.errInfo ++ [e], s.errCount + 1,
          s.totalArticleCount + 1, s.fetches ++ [t], s.mkdirs⟩
    else s

/-- Replaying prior records seeds the map: `uuidMap.set(item.toc.uuid, item)`
for each persisted item, in order. -/
def seedOf (rs : List ProgressItem) : UMap :=
  rs.foldl (fun m r => uset m r.toc.uuid r) []

/-- The result of `getKnowledgeBaseInfo` (`IKnowledgeBaseInfo`): every field
optional, `{}` when the embedded data block is missing. -/
structure IKnowledgeBaseInfo where
  bookId : Option Nat
  bookSlug : Option String
  tocList : Option (List Toc)
  bookName : Option String
  bookDesc : Option String
deriving DecidableEq

/-- The empty `IKnowledgeBaseInfo` (`return {}`). -/
def emptyInfo : IKnowledgeBaseInfo := ⟨none, none, none, none, none⟩

/-- A fresh run state: no resolved entries yet, the prior store untouched,
and the given initial directory-creation trace. -/
def initRun (prior : List ProgressItem) (mk : List String) : RunState :=
  ⟨[], prior, [], 0, 0, [], mk⟩

/-- The driver `main` (lines 117-246 of `index.ts`) after `getKnowledgeBaseInfo`
has produced `info`.  It returns the fatal outcome together with the final
orchestrator state; on a fatal error no effect has been performed.  `prior` is
the persisted record list loaded by `ProgressBar` (modelled from the spec:
`curr = prior.length`, `isDownloadInterrupted ↔ 0 < prior.length < total`).
`bid = 0` is fatal too, since `if (!bookId)` treats the number `0` as falsy. -/
def mainRun (distDir : String) (info : IKnowledgeBaseInfo) (prior : List ProgressItem)
    (f : Toc → Bool) : Except String Unit × RunState :=
  match info.bookId with
  | none => (.error "No found book id", initRun prior [])
  | some bid =>
    if bid = 0 then (.error "No found book id", initRun prior [])
    else
      match info.tocList with
      | none => (.error "No found toc list", initRun prior [])
      | some ns =>
        if ns = [] then (.error "No found toc list", initRun prior [])
        else
          let bookPath := distDir ++ "/" ++ toString bid
          let total := ns.length
          if prior.length = total then (.ok (), initRun prior [bookPath])
          else
            let seeded := if 0 < prior.length ∧ prior.length < total then seedOf prior else []
            (.ok (), ns.foldl (stepRun f bookPath) ⟨seeded, prior, [], 0, 0, [], [bookPath]⟩)


/-! ### Basic lookup lemmas -/

theorem uget_uset_self (m : UMap) (k : String) (v : ProgressItem) :
    uget (uset m k v) k = some v := by
  simp [uget, uset]

theorem uget_uset_ne (m : UMap) (k u : String) (v : ProgressItem) (h : k ≠ u) :
    uget (uset m k v) u = uget m u := by
  simp [uget, uset, h]

theorem uget_mem (m : UMap) (u : String) (p : ProgressItem) (h : uget m u = some p) :
    (u, p) ∈ m := by
  induction m with
  | nil => simp [uget] at h
  | cons kv m ih =>
    obtain ⟨k, v⟩ := kv
    by_cases hk : k = u
    · subst hk
      simp [uget] at h
      subst h
      exact List.mem_cons_self _ _
    · simp [uget, hk] at h
      exact List.mem_cons_of_mem _ (ih h)

theorem uget_isSome_mem_keys (m : UMap) (u : String) (h : (uget m u).isSome) :
    u ∈ m.map Prod.fst := by
  obtain ⟨p, hp⟩ := Option.isSome_iff_exists.mp h
  exact List.mem_map.mpr ⟨(u, p), uget_mem m u p hp, rfl⟩

/-! ### C6: the sanitizer -/

theorem foldr_repl_eq_map (l : List Char) :
    l.foldr (fun c acc => (if illegalChar c then '_' else c) :: acc) [] = l.map replIllegal := by
  induction l with
  | nil => rfl
  | cons c cs ih => simp [replIllegal, ih]

theorem dropFirstWs_eq_span (l : List Char) :
    dropFirstWs l = l.takeWhile (fun c => !jsWs c) ++ (l.dropWhile (fun c => !jsWs c)).drop 1 := by
  induction l with
  | nil => rfl
  | cons c cs ih =>
    by_cases h : jsWs c
    · simp [dropFirstWs, h, List.takeWhile, List.dropWhile]
    · simp [dropFirstWs, h, List.takeWhile, List.dropWhile, ih]

theorem mem_dropFirstWs (l : List Char) (c : Char) (h : c ∈ dropFirstWs l) : c ∈ l := by
  induction l with
  | nil => simp [dropFirstWs] at h
  | cons a cs ih =>
    by_cases ha : jsWs a
    · simp [dropFirstWs, ha] at h
      exact List.mem_cons_of_mem _ h
    · simp [dropFirstWs, ha] at h
      rcases h with h | h
      · exact h ▸ List.mem_cons_self _ _
      · exact List.mem_cons_of_mem _ (ih h)

theorem illegalChar_replIllegal (c : Char) : illegalChar (replIllegal c) = false := by
  unfold replIllegal
  by_cases h : illegalChar c
  · simp [h]
    decide
  · simp [h]

/-- C6.  `sanitize` equals the reference transformation (replace the eleven
illegal characters by `_`, then delete at most the first whitespace character),
it is a total function (hence deterministic), and none of the eleven illegal
characters ever occurs in its output. -/
theorem sanitize_spec_and_safety (s : String) :
    sanitize s = sanitizeSpecC6 s ∧
    (sanitize s).data.all (fun c => !illegalChar c) = true := by
  constructor
  · unfold sanitize sanitizeSpecC6
    rw [foldr_repl_eq_map, dropFirstWs_eq_span]
  · rw [List.all_eq_true]
    intro c hc
    have hmem : c ∈ s.data.map replIllegal := mem_dropFirstWs _ _ hc
    obtain ⟨a, _, ha⟩ := List.mem_map.mp hmem
    simp [← ha, illegalChar_replIllegal]

/-! ### C5: node classification -/

/-- C5.  For a node that is not skipped: it is handled as directory-like when
its lower-cased `type` is the directory marker `"title"` or its `child_uuid`
is non-empty; otherwise it is handled as a leaf when its `url` is non-empty;
a node matching neither (including a node whose `type` is not a string) is
ignored: the whole run state, effect traces included, is left unchanged and no
error is raised. -/
theorem classification_trichotomy (f : Toc → Bool) (bp : String) (s : RunState) (t : Toc)
    (hsk : uget s.map t.uuid = none) :
    (t.type = none → stepRun f bp s t = s) ∧
    (∀ ty, t.type = some ty → (lowerStr ty = "title" ∨ t.child_uuid ≠ "") →
      uget (stepRun f bp s t).map t.uuid = some (dirEntry s.map t)) ∧
    (∀ ty, t.type = some ty → ¬(lowerStr ty = "title" ∨ t.child_uuid ≠ "") → t.url ≠ "" →
      uget (stepRun f bp s t).map t.uuid = some (leafEntry s.map t)) ∧
    (∀ ty, t.type = some ty → ¬(lowerStr ty = "title" ∨ t.child_uuid ≠ "") → t.url = "" →
      stepRun f bp s t = s) := by
  refine ⟨?_, ?_, ?_, ?_⟩
  · intro h
    simp [stepRun, h]
  · intro ty hty hdir
    simp [stepRun, hty, hsk, hdir, uget_uset_self]
  · intro ty hty hdir hurl
    by_cases hf : f t
    · simp [stepRun, hty, hsk, hdir, hurl, hf, uget_uset_self]
    · simp [stepRun, hty, hsk, hdir, hurl, hf, uget_uset_self]
  · intro ty hty hdir hurl
    simp [stepRun, hty, hsk, hdir, hurl]

/-- Witness for C5 at a concrete malformed node (string type, not a directory,
empty url): it is ignored. -/
theorem classification_trichotomy_witness :
    stepRun (fun _ => true) "b" (initRun [] []) ⟨"u", "", "", "t", some "link", ""⟩
      = initRun [] [] := by
  have h := classification_trichotomy (fun _ => true) "b" (initRun [] [])
    ⟨"u", "", "", "t", some "link", ""⟩ rfl
  exact h.2.2.2 "link" rfl (by decide) rfl

/-! ### C4: leaf resolution extends the parent entry -/

theorem intercalate_singleton (x : String) : String.intercalate "/" [x] = x := by
  simp [String.intercalate, String.intercalate.go]

/-- C4.  A processed leaf node resolves to its parent's entry extended with the
sanitized title plus `.md` and with its own uuid; when the parent is absent
from the map the empty default is used, so the leaf becomes a root-level
document whose segment lists mention only the leaf itself (no fabricated
ancestry). -/
theorem leaf_parent_extension (m : UMap) (t : Toc) (ty : String)
    (hty : t.type = some ty) (hnd : ¬(lowerStr ty = "title" ∨ t.child_uuid ≠ ""))
    (hurl : t.url ≠ "") (hsk : uget m t.uuid = none) :
    (uget (stepMap m t) t.uuid =
      some ⟨String.intercalate "/"
              (((uget m t.parent_uuid).map ProgressItem.pathTitleList).getD []
                ++ [sanitize t.title ++ ".md"]),
            ((uget m t.parent_uuid).map ProgressItem.pathTitleList).getD []
              ++ [sanitize t.title ++ ".md"],
            ((uget m t.parent_uuid).map ProgressItem.pathIdList).getD [] ++ [t.uuid], t⟩) ∧
    (uget m t.parent_uuid = none →
      uget (stepMap m t) t.uuid =
        some ⟨sanitize t.title ++ ".md", [sanitize t.title ++ ".md"], [t.uuid], t⟩) := by
  constructor
  · simp [stepMap, hty, hsk, hnd, hurl, uget_uset_self, leafEntry]
  · intro hpar
    simp [stepMap, hty, hsk, hnd, hurl, uget_uset_self, leafEntry, hpar,
      intercalate_singleton]

/-- Witness for C4: a concrete orphan leaf resolves as a root-level document. -/
theorem leaf_parent_extension_witness :
    uget (stepMap [] ⟨"B", "A", "", "Hello", some "doc", "x1"⟩) "B"
      = some ⟨"Hello.md", ["Hello.md"], ["B"], ⟨"B", "A", "", "Hello", some "doc", "x1"⟩⟩ := by
  exact (leaf_parent_extension [] ⟨"B", "A", "", "Hello", some "doc", "x1"⟩ "doc"
    rfl (by decide) (by decide) rfl).2 rfl

/-! ### C7: the only fatal conditions, detected before any effect -/

/-- C7.  `mainRun` fails exactly when the book id is missing (or the falsy id
`0`) or the node list is missing or empty; in that case it fails with the
corresponding message and no effect has been performed: no directory was
created, no article was fetched, and the record store is untouched. -/
theorem fatal_iff_missing_id_or_empty_toc (dist : String) (info : IKnowledgeBaseInfo)
    (prior : List ProgressItem) (f : Toc → Bool) :
    ((mainRun dist info prior f).1 = .error "No found book id" ↔
      (info.bookId = none ∨ info.bookId = some 0)) ∧
    ((mainRun dist info prior f).1 = .error "No found toc list" ↔
      (¬(info.bookId = none ∨ info.bookId = some 0) ∧
        (info.tocList = none ∨ info.tocList = some []))) ∧
    (∀ e, (mainRun dist info prior f).1 = .error e →
      (mainRun dist info prior f).2 = initRun prior []) ∧
    ((¬(info.bookId = none ∨ info.bookId = some 0) ∧
        ¬(info.tocList = none ∨ info.tocList = some [])) →
      (mainRun dist info prior f).1 = .ok ()) := by
  obtain ⟨bid, slug, toc, nm, ds⟩ := info
  cases bid with
  | none => simp [mainRun]
  | some b =>
    by_cases hb : b = 0
    · subst hb
      simp [mainRun]
    · cases toc with
      | none => simp [mainRun, hb]
      | some ns =>
        by_cases hns : ns = []
        · subst hns
          simp [mainRun, hb]
        · by_cases hc : prior.length = ns.length
          · simp [mainRun, hb, hns, hc]
          · simp [mainRun, hb, hns, hc]

/-- Witness for C7 at a concrete input lacking a book id. -/
theorem fatal_iff_missing_id_witness :
    (mainRun "d" emptyInfo [] (fun _ => true)).1 = .error "No found book id" :=
  (fatal_iff_missing_id_or_empty_toc "d" emptyInfo [] (fun _ => true)).1.mpr (Or.inl rfl)

/-! ### C8: behaviour on an already-complete prior store -/

/-- A concrete one-node book used to exhibit the root `mkdir` of `main`. -/
def tocSolo : Toc := ⟨"S", "", "", "Doc", some "doc", "u1"⟩

/-- A concrete complete prior store for the one-node book. -/
def priorSolo : List ProgressItem := [⟨"Doc.md", ["Doc.md"], ["S"], tocSolo⟩]

/-- A concrete `IKnowledgeBaseInfo` for the one-node book. -/
def infoSolo : IKnowledgeBaseInfo :=
  ⟨some 1, some "s", some [tocSolo], some "Solo", some ""⟩

/-- Counterexample to C8 as stated.  With a complete prior store the run does
return immediately with no fetch and an empty failure report, but it has
already performed one directory-creation call: `fs.mkdir(bookPath)` at line
123 of `index.ts` runs before the completeness check at line 129, so the
number of directory-creation calls is one, not zero. -/
theorem complete_prior_mkdir_counterexample :
    priorSolo.length = 1 ∧ (infoSolo.tocList.getD []).length = 1 ∧
    (mainRun "d" infoSolo priorSolo (fun _ => true)).1 = .ok () ∧
    (mainRun "d" infoSolo priorSolo (fun _ => true)).2.mkdirs = ["d/1"] ∧
    (mainRun "d" infoSolo priorSolo (fun _ => true)).2.mkdirs ≠ [] := by
  exact ⟨rfl, rfl, rfl, rfl, by decide⟩

/-- C8 as amended.  When the loaded prior progress is complete
(`prior.length = total`), the run returns immediately: zero document fetches,
zero per-node directory creations, records untouched and an empty failure
report; the only file-system effect is the `mkdir` of the book root directory,
which the code performs before the completeness check. -/
theorem complete_prior_early_return (dist : String) (info : IKnowledgeBaseInfo)
    (prior : List ProgressItem) (f : Toc → Bool) (b : Nat) (ns : List Toc)
    (hid : info.bookId = some b) (hb : b ≠ 0) (htoc : info.tocList = some ns)
    (hns : ns ≠ []) (hcomplete : prior.length = ns.length) :
    mainRun dist info prior f =
      (.ok (), ⟨[], prior, [], 0, 0, [], [dist ++ "/" ++ toString b]⟩) := by
  simp [mainRun, hid, hb, htoc, hns, hcomplete, initRun]

/-- Witness for the amended C8 at the concrete one-node book. -/
theorem complete_prior_early_return_witness :
    mainRun "d" infoSolo priorSolo (fun _ => true)
      = (.ok (), ⟨[], priorSolo, [], 0, 0, [], ["d/1"]⟩) :=
  complete_prior_early_return "d" infoSolo priorSolo (fun _ => true) 1 [tocSolo]
    rfl (by decide) rfl (by decide) (by decide)

/-! ### C9: `getKnowledgeBaseInfo` -/

/-- `jsonData.book` as far as the code reads it. -/
structure KBBook where
  id : Nat
  slug : String
  name : Option String
  description : Option String
  toc : Option (List Toc)
deriving DecidableEq

/-- The decoded embedded payload (`KnowledgeBase.Response`). -/
structure KBResponse where
  book : Option KBBook
deriving DecidableEq

/-- An HTTP response as the axios promise delivers it. -/
structure HttpResp where
  status : Nat
  body : String
deriving DecidableEq

/-- `getKnowledgeBaseInfo` (lines 33-56 of `index.ts`).  The regex capture of
the embedded block and `JSON.parse ∘ decodeURIComponent` are the external
extraction collaborators, passed as `extract` and `parse` (`parse = none`
models a `JSON.parse` exception, which rejects the promise).  A non-2xx status
rejects inside axios itself (its default `validateStatus`); a 2xx status other
than 200 reaches the handler, which replaces the body by `''` and therefore
finds no embedded block. -/
def getKnowledgeBaseInfo (extract : String → Option String)
    (parse : String → Option KBResponse) (resp : HttpResp) :
    Except String IKnowledgeBaseInfo :=
  if resp.status < 200 ∨ 300 ≤ resp.status then .error "Request failed with status code"
  else
    let html := if resp.status = 200 then resp.body else ""
    match extract html with
    | none => .ok emptyInfo
    | some payload =>
      match parse payload with
      | none => .error "JSON.parse failed"
      | some jsonData =>
        match jsonData.book with
        | none => .ok emptyInfo
        | some book =>
          .ok ⟨some book.id, some book.slug, some (book.toc.getD []),
               some (book.name.getD ""), some (book.description.getD "")⟩

/-- C9 as amended.  `getKnowledgeBaseInfo` fails exactly when the HTTP layer
rejects (non-2xx status) or the embedded payload is present but does not
parse; it returns the empty `BookInfo` exactly when the response is 2xx and
either it is not status 200 (the handler discards the body), or the embedded
data block is absent, or the parsed payload has no `book` object. -/
theorem getKnowledgeBaseInfo_outcomes (extract : String → Option String)
    (parse : String → Option KBResponse) (resp : HttpResp) :
    ((∃ e, getKnowledgeBaseInfo extract parse resp = .error e) ↔
      ((resp.status < 200 ∨ 300 ≤ resp.status) ∨
        ∃ payload, extract (if resp.status = 200 then resp.body else "") = some payload ∧
          parse payload = none)) ∧
    (getKnowledgeBaseInfo extract parse resp = .ok emptyInfo ↔
      (¬(resp.status < 200 ∨ 300 ≤ resp.status) ∧
        (extract (if resp.status = 200 then resp.body else "") = none ∨
          ∃ payload j, extract (if resp.status = 200 then resp.body else "") = some payload ∧
            parse payload = some j ∧ j.book = none))) := by
  by_cases hst : resp.status < 200 ∨ 300 ≤ resp.status
  · constructor
    · simp [getKnowledgeBaseInfo, hst]
    · simp [getKnowledgeBaseInfo, hst]
  · cases hex : extract (if resp.status = 200 then resp.body else "") with
    | none => simp [getKnowledgeBaseInfo, hst, hex]
    | some payload =>
      cases hpa : parse payload with
      | none => simp [getKnowledgeBaseInfo, hst, hex, hpa]
      | some j =>
        cases hbk : j.book with
        | none => simp [getKnowledgeBaseInfo, hst, hex, hpa, hbk]
        | some book =>
          constructor
          · simp [getKnowledgeBaseInfo, hst, hex, hpa, hbk]
          · simp [getKnowledgeBaseInfo, hst, hex, hpa, hbk, emptyInfo]

/-- Witness for the amended C9: a concrete 200 response whose embedded block
is present but fails to parse makes the call fail. -/
theorem getKnowledgeBaseInfo_outcomes_witness :
    ∃ e, getKnowledgeBaseInfo (fun _ => some "p") (fun _ => none) ⟨200, "x"⟩ = .error e :=
  (getKnowledgeBaseInfo_outcomes (fun _ => some "p") (fun _ => none) ⟨200, "x"⟩).1.mpr
    (Or.inr ⟨"p", rfl, rfl⟩)

/-- Counterexample to C9 as stated.  A status-204 response is not a 200
response, yet `getKnowledgeBaseInfo` does not fail: the handler maps every
2xx-but-not-200 response to the empty html string and then returns the empty
`BookInfo` — even when the response body does contain a data block that the
extractor would capture. -/
theorem getKnowledgeBaseInfo_non200_counterexample :
    (204 : Nat) ≠ 200 ∧
    (fun s => if s = "" then none else some s) "block" = some "block" ∧
    getKnowledgeBaseInfo (fun s => if s = "" then none else some s)
      (fun _ => none) ⟨204, "block"⟩ = .ok emptyInfo :=
  ⟨by decide, rfl, rfl⟩

/-! ### C10: `downloadArticle` -/

/-- The parameters of `downloadArticle` (`IDownloadArticleParams`). -/
structure IDownloadArticleParams where
  bookId : Nat
  itemUrl : String
  savePath : String
  saveFilePath : String
  uuid : String
  articleTitle : String
  articleUrl : String
deriving DecidableEq

/-- `apiUrl` with its query string (`URLSearchParams` keeps insertion order). -/
def apiUrlOf (p : IDownloadArticleParams) : String :=
  "https://www.yuque.com/api/docs/" ++ p.itemUrl ++ "?book_id=" ++ toString p.bookId ++
    "&merge_dynamic_data=false&mode=markdown"

/-- `apiRes.data` as the code reads it. -/
structure ArticleInner where
  sourcecode : Option String
deriving DecidableEq

/-- The article API payload (`ArticleResponse.RootObject`). -/
structure ArticleResp where
  data : Option ArticleInner
deriving DecidableEq

/-- The error thrown by `mdImg.run`: its `message`, and optionally a failing
image `url` together with a nested `error` whose message the code prefers. -/
structure ImgErr where
  message : String
  url : Option String
  errMessage : Option String
deriving DecidableEq

/-- `mdData.replace(/<br(\s?)\/>/gm, '\n')`: global leftmost replacement of
`<br/>` or `<br` + one whitespace + `/>` by a newline. -/
def brReplace : List Char → List Char
  | [] => []
  | '<' :: 'b' :: 'r' :: '/' :: '>' :: rest => '\n' :: brReplace rest
  | '<' :: 'b' :: 'r' :: c :: '/' :: '>' :: rest =>
    if jsWs c then '\n' :: brReplace rest
    else '<' :: 'b' :: 'r' :: brReplace (c :: '/' :: '>' :: rest)
  | c :: rest => c :: brReplace rest


/-- The final document text: `<br/>` rewriting, then the title header
(`if (articleTitle)`), then the canonical-source footer (`if (articleUrl)`). -/
def finalText (p : IDownloadArticleParams) (md : String) : String :=
  let md1 : String := ⟨brReplace md.data⟩
  let md2 := if p.articleTitle ≠ "" then
      "# " ++ p.articleTitle ++ "\n<!--page header-->\n\n" ++ md1 ++ "\n\n"
    else md1
  if p.articleUrl ≠ "" then md2 ++ "<!--page footer-->\n- 原文: <" ++ p.articleUrl ++ ">"
  else md2

/-- `downloadArticle` (lines 59-115 of `index.ts`).  `http` is the axios call
(error = rejected promise, carrying `e.message`); `img` is `mdImg.run`;
`write` is `fs.writeFile`.  The two throws inside the `.then` handler are
re-wrapped by the `.catch`, hence the doubled prefix. -/
def downloadArticle (p : IDownloadArticleParams) (http : Except String (Nat × ArticleResp))
    (img : String → Except ImgErr String) (write : String → Except String Unit) :
    Except String Bool :=
  let apiUrl := apiUrlOf p
  match http with
  | .error em => .error ("download article Error: " ++ apiUrl ++ " " ++ em)
  | .ok (status, resp) =>
    if status = 200 then
      match resp.data with
      | none => .error ("download article Error: " ++ apiUrl ++ " " ++
          ("download article Error: " ++ apiUrl))
      | some inner =>
        match inner.sourcecode with
        | none => .error ("download article Error: " ++ apiUrl ++ " " ++
            ("download article Error: " ++ apiUrl))
        | some sc =>
          if sc = "" then
            .error ("download article Error: " ++ apiUrl ++ " " ++
              ("download article Error: " ++ apiUrl))
          else
            match img sc with
            | .error e =>
              match e.errMessage, e.url with
              | some em2, some u =>
                if u = "" then .error ("download article image Error: " ++ e.message)
                else .error ("download article image Error " ++ u ++ ": " ++ em2)
              | _, _ => .error ("download article image Error: " ++ e.message)
            | .ok md =>
              match write (finalText p md) with
              | .ok _ => .ok true
              | .error em => .error ("download article Error " ++ p.articleUrl ++ ": " ++ em)
    else
      .error ("download article Error: " ++ apiUrl ++ " " ++
        ("download article Error: " ++ apiUrl ++ " http status " ++ toString status))

/-- C10 as amended.  `downloadArticle` never resolves to `false`: it either
resolves to `true` (after the final text was written) or rejects, and every
rejection message has one of exactly four shapes — the article-fetch shapes
carry the article api url, the write-failure shape carries the article page
url, the url-bearing image shape carries the failing image url, and the plain
image shape carries only the image collaborator's own message (no url). -/
theorem downloadArticle_outcomes (p : IDownloadArticleParams)
    (http : Except String (Nat × ArticleResp)) (img : String → Except ImgErr String)
    (write : String → Except String Unit) :
    (∀ b, downloadArticle p http img write = .ok b → b = true) ∧
    ((downloadArticle p http img write = .ok true) ∨
      ∃ m, downloadArticle p http img write = .error m) ∧
    (∀ m, downloadArticle p http img write = .error m →
      (∃ suffix, m = "download article Error: " ++ apiUrlOf p ++ suffix) ∨
      (∃ em, m = "download article image Error: " ++ em) ∨
      (∃ u em2, m = "download article image Error " ++ u ++ ": " ++ em2) ∨
      (∃ em, m = "download article Error " ++ p.articleUrl ++ ": " ++ em)) := by
  have shape : ∀ tail : String,
      "download article Error: " ++ apiUrlOf p ++ " " ++ tail =
        "download article Error: " ++ apiUrlOf p ++ (" " ++ tail) := by
    intro tail
    rw [String.append_assoc]
  have packE : ∀ res : Except String Bool, ∀ msg : String, res = .error msg →
      ((∃ suffix, msg = "download article Error: " ++ apiUrlOf p ++ suffix) ∨
        (∃ em, msg = "download article image Error: " ++ em) ∨
        (∃ u em2, msg = "download article image Error " ++ u ++ ": " ++ em2) ∨
        (∃ em, msg = "download article Error " ++ p.articleUrl ++ ": " ++ em)) →
      (∀ b, res = .ok b → b = true) ∧
      ((res = .ok true) ∨ ∃ m, res = .error m) ∧
      (∀ m, res = .error m →
        (∃ suffix, m = "download article Error: " ++ apiUrlOf p ++ suffix) ∨
        (∃ em, m = "download article image Error: " ++ em) ∨
        (∃ u em2, m = "download article image Error " ++ u ++ ": " ++ em2) ∨
        (∃ em, m = "download article Error " ++ p.articleUrl ++ ": " ++ em)) := by
    intro res msg hres hshape
    subst hres
    refine ⟨?_, Or.inr ⟨msg, rfl⟩, ?_⟩
    · intro b hb
      exact absurd hb (by simp)
    · intro m hm
      injection hm with h
      exact h ▸ hshape
  have packO : ∀ res : Except String Bool, res = .ok true →
      (∀ b, res = .ok b → b = true) ∧
      ((res = .ok true) ∨ ∃ m, res = .error m) ∧
      (∀ m, res = .error m →
        (∃ suffix, m = "download article Error: " ++ apiUrlOf p ++ suffix) ∨
        (∃ em, m = "download article image Error: " ++ em) ∨
        (∃ u em2, m = "download article image Error " ++ u ++ ": " ++ em2) ∨
        (∃ em, m = "download article Error " ++ p.articleUrl ++ ": " ++ em)) := by
    intro res hres
    subst hres
    refine ⟨?_, Or.inl rfl, ?_⟩
    · intro b hb
      injection hb with h
      exact h.symm
    · intro m hm
      exact absurd hm (by simp)
  match hh : http with
  | .error em =>
    refine packE _ ("download article Error: " ++ apiUrlOf p ++ " " ++ em)
      (by simp [downloadArticle]) (Or.inl ⟨" " ++ em, shape em⟩)
  | .ok (status, resp) =>
    by_cases hs : status = 200
    · subst hs
      cases hd : resp.data with
      | none =>
        refine packE _ ("download article Error: " ++ apiUrlOf p ++ " " ++
            ("download article Error: " ++ apiUrlOf p))
          (by simp [downloadArticle, hd]) (Or.inl ⟨_, shape _⟩)
      | some inner =>
        cases hsc : inner.sourcecode with
        | none =>
          refine packE _ ("download article Error: " ++ apiUrlOf p ++ " " ++
              ("download article Error: " ++ apiUrlOf p))
            (by simp [downloadArticle, hd, hsc]) (Or.inl ⟨_, shape _⟩)
        | some sc =>
          by_cases hemp : sc = ""
          · refine packE _ ("download article Error: " ++ apiUrlOf p ++ " " ++
                ("download article Error: " ++ apiUrlOf p))
              (by simp [downloadArticle, hd, hsc, hemp]) (Or.inl ⟨_, shape _⟩)
          · cases hi : img sc with
            | error e =>
              match he : e.errMessage, hu : e.url with
              | some em2, some u =>
                by_cases hue : u = ""
                · refine packE _ ("download article image Error: " ++ e.message)
                    (by simp [downloadArticle, hd, hsc, hemp, hi, he, hu, hue])
                    (Or.inr (Or.inl ⟨_, rfl⟩))
                · refine packE _ ("download article image Error " ++ u ++ ": " ++ em2)
                    (by simp [downloadArticle, hd, hsc, hemp, hi, he, hu, hue])
                    (Or.inr (Or.inr (Or.inl ⟨u, em2, rfl⟩)))
              | some em2, none =>
                refine packE _ ("download article image Error: " ++ e.message)
                  (by simp [downloadArticle, hd, hsc, hemp, hi, he, hu])
                  (Or.inr (Or.inl ⟨_, rfl⟩))
              | none, hu2 =>
                refine packE _ ("download article image Error: " ++ e.message)
                  (by simp [downloadArticle, hd, hsc, hemp, hi, he])
                  (Or.inr (Or.inl ⟨_, rfl⟩))
            | ok md =>
              cases hw : write (finalText p md) with
              | ok uu =>
                exact packO _ (by simp [downloadArticle, hd, hsc, hemp, hi, hw])
              | error em =>
                refine packE _ ("download article Error " ++ p.articleUrl ++ ": " ++ em)
                  (by simp [downloadArticle, hd, hsc, hemp, hi, hw])
                  (Or.inr (Or.inr (Or.inr ⟨em, rfl⟩)))
    · refine packE _ ("download article Error: " ++ apiUrlOf p ++ " " ++
          ("download article Error: " ++ apiUrlOf p ++ " http status " ++ toString status))
        (by simp [downloadArticle, hs]) (Or.inl ⟨_, shape _⟩)

/-- Witness for the amended C10: a fully successful concrete download resolves
to `true` (and `true = true` follows from the never-false clause). -/
theorem downloadArticle_outcomes_witness : (true : Bool) = true :=
  (downloadArticle_outcomes ⟨1, "doc1", "sp", "sfp", "U", "T", "https://x/doc1"⟩
    (.ok (200, ⟨some ⟨some "md"⟩⟩)) (fun s => .ok s) (fun _ => .ok ())).1 true rfl

/-- Whether `pre` is a prefix of the second list. -/
def isPre : List Char → List Char → Bool
  | [], _ => true
  | _ :: _, [] => false
  | a :: as, b :: bs => a == b && isPre as bs

/-- Whether `needle` occurs contiguously inside the second list. -/
def hasSubstr (needle : List Char) : List Char → Bool
  | [] => isPre needle []
  | c :: rest => isPre needle (c :: rest) || hasSubstr needle rest

/-- Counterexample to C10 as stated.  When `mdImg.run` throws a plain error
(no `url` field), the rejection message is `download article image Error: `
followed only by the thrown message: it contains neither the article api url,
nor the article page url, nor any image url, so the message does not identify
the failing article or image URL. -/
theorem downloadArticle_message_counterexample :
    downloadArticle ⟨1, "doc1", "sp", "sfp", "U", "T", "https://x/doc1"⟩
        (.ok (200, ⟨some ⟨some "md"⟩⟩)) (fun _ => .error ⟨"boom", none, none⟩)
        (fun _ => .ok ())
      = .error "download article image Error: boom" ∧
    hasSubstr (apiUrlOf ⟨1, "doc1", "sp", "sfp", "U", "T", "https://x/doc1"⟩).data
      "download article image Error: boom".data = false ∧
    hasSubstr "https://x/doc1".data "download article image Error: boom".data = false :=
  ⟨rfl, by decide, by decide⟩

/-! ### The ancestor walk as an inductive chain -/

/-- `Chain m t ts is ks` says that the `while (tempItem)` walk started at `t`
terminates, producing the root-first title list `ts` and uuid list `is`, and
looking up exactly the keys `ks` (current-node first; the last key is the one
whose lookup fails and stops the loop). -/
inductive Chain (m : UMap) : Toc → List String → List String → List String → Prop where
  | last : ∀ {t : Toc}, uget m t.parent_uuid = none →
      Chain m t [sanitize t.title] [t.uuid] [t.parent_uuid]
  | step : ∀ {t : Toc} {p : ProgressItem} {ts ids ks : List String},
      uget m t.parent_uuid = some p → Chain m p.toc ts ids ks →
      Chain m t (ts ++ [sanitize t.title]) (ids ++ [t.uuid]) (t.parent_uuid :: ks)

theorem chain_climbO {m : UMap} {t : Toc} {ts ids ks : List String}
    (h : Chain m t ts ids ks) : ∀ fu, ks.length ≤ fu → climbO fu m t = some (ts, ids) := by
  induction h with
  | last hnone =>
    intro fu hfu
    match fu with
    | 0 => simp at hfu
    | fu' + 1 => simp [climbO, hnone]
  | step hsome hc ih =>
    intro fu hfu
    match fu with
    | 0 => simp at hfu
    | fu' + 1 =>
      simp [climbO, hsome, ih fu' (by simp only [List.length_cons] at hfu; omega)]

theorem chainAgree {m m2 : UMap} {t : Toc} {ts ids ks : List String}
    (h : Chain m t ts ids ks) (hag : ∀ k ∈ ks, uget m2 k = uget m k) :
    Chain m2 t ts ids ks := by
  induction h with
  | last hnone =>
    exact Chain.last (by rw [hag _ (List.mem_singleton_self _)]; exact hnone)
  | step hsome hc ih =>
    refine Chain.step (p := _) ?_ (ih ?_)
    · rw [hag _ (List.mem_cons_self _ _)]
      exact hsome
    · intro k hk
      exact hag k (List.mem_cons_of_mem _ hk)

theorem chainUnique {m : UMap} {t : Toc} {ts1 ids1 ks1 : List String}
    (h1 : Chain m t ts1 ids1 ks1) : ∀ {ts2 ids2 ks2 : List String},
    Chain m t ts2 ids2 ks2 → ts1 = ts2 ∧ ids1 = ids2 ∧ ks1 = ks2 := by
  induction h1 with
  | last hnone =>
    intro ts2 ids2 ks2 h2
    cases h2 with
    | last h => exact ⟨rfl, rfl, rfl⟩
    | step h hc => rw [hnone] at h; exact absurd h (by simp)
  | step hsome hc ih =>
    intro ts2 ids2 ks2 h2
    cases h2 with
    | last h => rw [hsome] at h; exact absurd h (by simp)
    | step h hc2 =>
      rw [hsome] at h
      injection h with hp
      subst hp
      obtain ⟨e1, e2, e3⟩ := ih hc2
      exact ⟨by rw [e1], by rw [e2], by rw [e3]⟩

theorem chainMemKey {m : UMap} {t : Toc} {ts ids ks : List String}
    (h : Chain m t ts ids ks) : ∀ k ∈ ks, ∃ t2 ts2 ids2 ks2,
      Chain m t2 ts2 ids2 ks2 ∧ t2.parent_uuid = k ∧ ks2.length ≤ ks.length := by
  induction h with
  | last hnone =>
    intro k hk
    rw [List.mem_singleton] at hk
    exact ⟨_, _, _, _, Chain.last hnone, hk.symm ▸ rfl, le_refl _⟩
  | step hsome hc ih =>
    intro k hk
    rcases List.mem_cons.mp hk with hk | hk
    · exact ⟨_, _, _, _, Chain.step hsome hc, hk.symm ▸ rfl, le_refl _⟩
    · obtain ⟨t2, ts2, ids2, ks2, hc2, hpar, hlen⟩ := ih k hk
      exact ⟨t2, ts2, ids2, ks2, hc2, hpar, hlen.trans (by simp)⟩

theorem chainNodup {m : UMap} {t : Toc} {ts ids ks : List String}
    (h : Chain m t ts ids ks) : ks.Nodup := by
  induction h with
  | last hnone => simp
  | step hsome hc ih =>
    refine List.nodup_cons.mpr ⟨?_, ih⟩
    intro hmem
    obtain ⟨t2, ts2, ids2, ks2, hc2, hpar, hlen⟩ := chainMemKey hc _ hmem
    cases hc2 with
    | last h2 =>
      rw [hpar, hsome] at h2
      exact absurd h2 (by simp)
    | step h2 hc3 =>
      rw [hpar, hsome] at h2
      injection h2 with hp
      subst hp
      obtain ⟨_, _, hks⟩ := chainUnique hc3 hc
      subst hks
      simp at hlen

theorem chainKeys {m : UMap} {t : Toc} {ts ids ks : List String}
    (h : Chain m t ts ids ks) : ∃ ks0 klast, ks = ks0 ++ [klast] ∧
      (∀ k ∈ ks0, (uget m k).isSome) ∧ uget m klast = none := by
  induction h with
  | last hnone => exact ⟨[], _, rfl, by simp, hnone⟩
  | step hsome hc ih =>
    rename_i t2 p2 ts2 ids2 ks2
    obtain ⟨ks0, klast, hks, hsm, hnone⟩ := ih
    refine ⟨t2.parent_uuid :: ks0, klast, by simp [hks], ?_, hnone⟩
    intro k hk
    rcases List.mem_cons.mp hk with hk | hk
    · subst hk
      simp [hsome]
    · exact hsm k hk

theorem chainLen_le {m : UMap} {t : Toc} {ts ids ks : List String}
    (h : Chain m t ts ids ks) : ks.length ≤ m.length + 1 := by
  obtain ⟨ks0, klast, hks, hsm, _⟩ := chainKeys h
  have hnd : ks0.Nodup := by
    have := chainNodup h
    rw [hks] at this
    exact (List.nodup_append.mp this).1
  have hsub : ks0 ⊆ m.map Prod.fst := fun k hk => uget_isSome_mem_keys m k (hsm k hk)
  have hlen : ks0.length ≤ (m.map Prod.fst).length := (hnd.subperm hsub).length_le
  rw [hks]
  simp only [List.length_append, List.length_singleton, List.length_map] at hlen ⊢
  omega

theorem climb_of_chain {m : UMap} {t : Toc} {ts ids ks : List String}
    (h : Chain m t ts ids ks) : climb m t = (ts, ids) := by
  rw [climb, chain_climbO h (m.length + 1) (chainLen_le h)]
  rfl

/-- The ancestor chain of a node through the resolution map, root-first,
exactly as the spec words it: repeatedly look the parent id up until no
ancestor is found, and end with the node itself. -/
inductive AncChain (m : UMap) : Toc → List Toc → Prop where
  | root : ∀ {t : Toc}, uget m t.parent_uuid = none → AncChain m t [t]
  | step : ∀ {t : Toc} {p : ProgressItem} {ch : List Toc},
      uget m t.parent_uuid = some p → AncChain m p.toc ch → AncChain m t (ch ++ [t])

theorem chain_toAnc {m : UMap} {t : Toc} {ts ids ks : List String}
    (h : Chain m t ts ids ks) : ∃ ch, AncChain m t ch ∧
      ts = ch.map (fun a => sanitize a.title) ∧ ids = ch.map Toc.uuid := by
  induction h with
  | last hnone => exact ⟨[_], AncChain.root hnone, by simp, by simp⟩
  | step hsome hc ih =>
    obtain ⟨ch, hanc, hts, hids⟩ := ih
    exact ⟨ch ++ [_], AncChain.step hsome hanc, by simp [hts], by simp [hids]⟩

/-! ### C3: directory resolution joins the sanitized ancestor chain -/

/-- C3.  When a non-skipped directory-like node is processed and its ancestor
walk terminates (`Chain`), the entry stored under the node's id carries its
root-first ancestor chain: the path is the '/'-join of the chain's sanitized
titles (ending with the node's own sanitized title), the title segments are
exactly those sanitized titles, and the id segments are the chain's uuids.  In
particular, in the concrete scenario `[A: dir "Intro", B: leaf "Hello" with
parent A]` with empty prior progress, `A` resolves to the path `"Intro"`. -/
theorem dir_resolution_and_scenario :
    (∀ (m : UMap) (t : Toc) (ty : String) (ts ids ks : List String),
      t.type = some ty → (lowerStr ty = "title" ∨ t.child_uuid ≠ "") →
      uget m t.uuid = none → Chain m t ts ids ks →
      ∃ ch, AncChain m t ch ∧
        uget (stepMap m t) t.uuid =
          some ⟨String.intercalate "/" (ch.map (fun a => sanitize a.title)),
                ch.map (fun a => sanitize a.title), ch.map Toc.uuid, t⟩) ∧
    uget (processToc [] [⟨"A", "", "", "Intro", some "title", ""⟩,
        ⟨"B", "A", "", "Hello", some "doc", "x1"⟩]) "A"
      = some ⟨"Intro", ["Intro"], ["A"], ⟨"A", "", "", "Intro", some "title", ""⟩⟩ := by
  constructor
  · intro m t ty ts ids ks hty hdir hsk hc
    obtain ⟨ch, hanc, hts, hids⟩ := chain_toAnc hc
    refine ⟨ch, hanc, ?_⟩
    have hcl := climb_of_chain hc
    simp [stepMap, hty, hsk, hdir, uget_uset_self, dirEntry, hcl, hts, hids]
  · decide

/-- Witness for C3 applied at the concrete root directory node with an empty
map: the walk is the one-element chain and the path is the bare title. -/
theorem dir_resolution_witness :
    ∃ ch, AncChain [] ⟨"A", "", "", "Intro", some "title", ""⟩ ch ∧
      uget (stepMap [] ⟨"A", "", "", "Intro", some "title", ""⟩) "A"
        = some ⟨String.intercalate "/" (ch.map (fun a => sanitize a.title)),
                ch.map (fun a => sanitize a.title), ch.map Toc.uuid,
                ⟨"A", "", "", "Intro", some "title", ""⟩⟩ :=
  dir_resolution_and_scenario.1 [] ⟨"A", "", "", "Intro", some "title", ""⟩ "title"
    [sanitize "Intro"] ["A"] [""] rfl (Or.inl (by decide)) rfl (Chain.last rfl)

/-! ### Branch lemmas for one loop iteration -/

theorem stepMap_of_none {t : Toc} (h : t.type = none) (m : UMap) : stepMap m t = m := by
  simp [stepMap, h]

theorem stepMap_of_skip {t : Toc} {ty : String} (hty : t.type = some ty) {m : UMap}
    (h : (uget m t.uuid).isSome) : stepMap m t = m := by
  simp [stepMap, hty, h]

theorem stepMap_of_dir {t : Toc} {ty : String} (hty : t.type = some ty) {m : UMap}
    (hsk : uget m t.uuid = none) (hdir : lowerStr ty = "title" ∨ t.child_uuid ≠ "") :
    stepMap m t = uset m t.uuid (dirEntry m t) := by
  simp [stepMap, hty, hsk, hdir]

theorem stepMap_of_leaf {t : Toc} {ty : String} (hty : t.type = some ty) {m : UMap}
    (hsk : uget m t.uuid = none) (hdir : ¬(lowerStr ty = "title" ∨ t.child_uuid ≠ ""))
    (hurl : t.url ≠ "") : stepMap m t = uset m t.uuid (leafEntry m t) := by
  simp [stepMap, hty, hsk, hdir, hurl]

theorem stepMap_of_ign {t : Toc} {ty : String} (hty : t.type = some ty) {m : UMap}
    (hsk : uget m t.uuid = none) (hdir : ¬(lowerStr ty = "title" ∨ t.child_uuid ≠ ""))
    (hurl : t.url = "") : stepMap m t = m := by
  simp [stepMap, hty, hsk, hdir, hurl]

theorem stepRun_of_none {t : Toc} (h : t.type = none) (f : Toc → Bool) (bp : String)
    (s : RunState) : stepRun f bp s t = s := by
  simp [stepRun, h]

theorem stepRun_of_skip {t : Toc} {ty : String} (hty : t.type = some ty) (f : Toc → Bool)
    (bp : String) {s : RunState} (h : (uget s.map t.uuid).isSome) : stepRun f bp s t = s := by
  simp [stepRun, hty, h]

theorem stepRun_of_dir {t : Toc} {ty : String} (hty : t.type = some ty) (f : Toc → Bool)
    (bp : String) {s : RunState} (hsk : uget s.map t.uuid = none)
    (hdir : lowerStr ty = "title" ∨ t.child_uuid ≠ "") :
    stepRun f bp s t = ⟨uset s.map t.uuid (dirEntry s.map t), s.records ++ [dirEntry s.map t],
      s.errInfo, s.errCount, s.totalArticleCount, s.fetches,
      s.mkdirs ++ [bp ++ "/" ++ (dirEntry s.map t).path]⟩ := by
  simp [stepRun, hty, hsk, hdir]

theorem stepRun_of_leaf_ok {t : Toc} {ty : String} (hty : t.type = some ty) {f : Toc → Bool}
    (bp : String) {s : RunState} (hsk : uget s.map t.uuid = none)
    (hdir : ¬(lowerStr ty = "title" ∨ t.child_uuid ≠ "")) (hurl : t.url ≠ "")
    (hf : f t = true) :
    stepRun f bp s t = ⟨uset s.map t.uuid (leafEntry s.map t), s.records ++ [leafEntry s.map t],
      s.errInfo, s.errCount, s.totalArticleCount + 1, s.fetches ++ [t], s.mkdirs⟩ := by
  simp [stepRun, hty, hsk, hdir, hurl, hf]

theorem stepRun_of_leaf_fail {t : Toc} {ty : String} (hty : t.type = some ty) {f : Toc → Bool}
    (bp : String) {s : RunState} (hsk : uget s.map t.uuid = none)
    (hdir : ¬(lowerStr ty = "title" ∨ t.child_uuid ≠ "")) (hurl : t.url ≠ "")
    (hf : f t = false) :
    stepRun f bp s t = ⟨uset s.map t.uuid (leafEntry s.map t), s.records,
      s.errInfo ++ [leafEntry s.map t], s.errCount + 1, s.totalArticleCount + 1,
      s.fetches ++ [t], s.mkdirs⟩ := by
  simp [stepRun, hty, hsk, hdir, hurl, hf]

theorem stepRun_of_ign {t : Toc} {ty : String} (hty : t.type = some ty) (f : Toc → Bool)
    (bp : String) {s : RunState} (hsk : uget s.map t.uuid = none)
    (hdir : ¬(lowerStr ty = "title" ∨ t.child_uuid ≠ "")) (hurl : t.url = "") :
    stepRun f bp s t = s := by
  simp [stepRun, hty, hsk, hdir, hurl]

theorem stepRun_map (f : Toc → Bool) (bp : String) (s : RunState) (t : Toc) :
    (stepRun f bp s t).map = stepMap s.map t := by
  cases hty : t.type with
  | none => rw [stepRun_of_none hty, stepMap_of_none hty]
  | some ty =>
    cases hsk : uget s.map t.uuid with
    | some q =>
      rw [stepRun_of_skip hty f bp (by simp [hsk]), stepMap_of_skip hty (by simp [hsk])]
    | none =>
      by_cases hdir : lowerStr ty = "title" ∨ t.child_uuid ≠ ""
      · rw [stepRun_of_dir hty f bp hsk hdir, stepMap_of_dir hty hsk hdir]
      · by_cases hurl : t.url = ""
        · rw [stepRun_of_ign hty f bp hsk hdir hurl, stepMap_of_ign hty hsk hdir hurl]
        · by_cases hf : f t
          · rw [stepRun_of_leaf_ok hty bp hsk hdir hurl hf, stepMap_of_leaf hty hsk hdir hurl]
          · rw [stepRun_of_leaf_fail hty bp hsk hdir hurl (by simp [hf]),
              stepMap_of_leaf hty hsk hdir hurl]

/-- Only the binding of the node's own uuid can change in one step. -/
theorem stepMap_ne {t : Toc} {u : String} (hne : t.uuid ≠ u) (m : UMap) :
    uget (stepMap m t) u = uget m u := by
  cases hty : t.type with
  | none => rw [stepMap_of_none hty]
  | some ty =>
    cases hsk : uget m t.uuid with
    | some q => rw [stepMap_of_skip hty (by simp [hsk])]
    | none =>
      by_cases hdir : lowerStr ty = "title" ∨ t.child_uuid ≠ ""
      · rw [stepMap_of_dir hty hsk hdir, uget_uset_ne _ _ _ _ hne]
      · by_cases hurl : t.url = ""
        · rw [stepMap_of_ign hty hsk hdir hurl]
        · rw [stepMap_of_leaf hty hsk hdir hurl, uget_uset_ne _ _ _ _ hne]

/-- An existing binding is never overwritten. -/
theorem stepMap_preserve {m : UMap} {u : String} {p : ProgressItem}
    (h : uget m u = some p) (t : Toc) : uget (stepMap m t) u = some p := by
  by_cases hne : t.uuid = u
  · subst hne
    cases hty : t.type with
    | none => rw [stepMap_of_none hty]; exact h
    | some ty => rw [stepMap_of_skip hty (by simp [h])]; exact h
  · rw [stepMap_ne hne]; exact h

theorem processToc_preserve {m : UMap} {u : String} {p : ProgressItem}
    (h : uget m u = some p) (l : List Toc) : uget (processToc m l) u = some p := by
  induction l generalizing m with
  | nil => exact h
  | cons t l ih => exact ih (stepMap_preserve h t)

/-- Whether one loop iteration inserts a binding for the node's uuid when the
uuid is still absent. -/
def inserts (t : Toc) : Bool :=
  match t.type with
  | none => false
  | some ty =>
    decide (lowerStr ty = "title" ∨ t.child_uuid ≠ "") || decide (t.url ≠ "")

theorem stepMap_self_isSome (m : UMap) (t : Toc) :
    (uget (stepMap m t) t.uuid).isSome = ((uget m t.uuid).isSome || inserts t) := by
  cases hty : t.type with
  | none => rw [stepMap_of_none hty]; simp [inserts, hty]
  | some ty =>
    cases hsk : uget m t.uuid with
    | some q => rw [stepMap_of_skip hty (by simp [hsk])]; simp [hsk]
    | none =>
      by_cases hdir : lowerStr ty = "title" ∨ t.child_uuid ≠ ""
      · rw [stepMap_of_dir hty hsk hdir]
        simp [hsk, uget_uset_self, inserts, hty, hdir]
      · by_cases hurl : t.url = ""
        · rw [stepMap_of_ign hty hsk hdir hurl]
          simp [hsk, inserts, hty, hdir, hurl]
        · rw [stepMap_of_leaf hty hsk hdir hurl]
          simp [hsk, uget_uset_self, inserts, hty, hdir, hurl]

theorem dirEntry_toc (m : UMap) (t : Toc) : (dirEntry m t).toc = t := rfl

theorem leafEntry_toc (m : UMap) (t : Toc) : (leafEntry m t).toc = t := rfl

/-! ### Run-state invariants along a pass -/

theorem uget_uset_isSome_mono {m : UMap} {u : String} (h : (uget m u).isSome)
    (k : String) (v : ProgressItem) : (uget (uset m k v) u).isSome := by
  by_cases hk : k = u
  · subst hk
    rw [uget_uset_self]
    rfl
  · rw [uget_uset_ne _ _ _ _ hk]
    exact h

/-- The four possible outcomes of one loop iteration. -/
theorem stepRun_split (f : Toc → Bool) (bp : String) (s : RunState) (t : Toc) :
    stepRun f bp s t = s ∨
    (uget s.map t.uuid = none ∧
      (stepRun f bp s t = ⟨uset s.map t.uuid (dirEntry s.map t), s.records ++ [dirEntry s.map t],
          s.errInfo, s.errCount, s.totalArticleCount, s.fetches,
          s.mkdirs ++ [bp ++ "/" ++ (dirEntry s.map t).path]⟩ ∨
       (f t = true ∧ stepRun f bp s t = ⟨uset s.map t.uuid (leafEntry s.map t),
          s.records ++ [leafEntry s.map t], s.errInfo, s.errCount, s.totalArticleCount + 1,
          s.fetches ++ [t], s.mkdirs⟩) ∨
       (f t = false ∧ stepRun f bp s t = ⟨uset s.map t.uuid (leafEntry s.map t), s.records,
          s.errInfo ++ [leafEntry s.map t], s.errCount + 1, s.totalArticleCount + 1,
          s.fetches ++ [t], s.mkdirs⟩))) := by
  cases hty : t.type with
  | none => exact Or.inl (stepRun_of_none hty f bp s)
  | some ty =>
    cases hsk : uget s.map t.uuid with
    | some q => exact Or.inl (stepRun_of_skip hty f bp (by simp [hsk]))
    | none =>
      by_cases hdir : lowerStr ty = "title" ∨ t.child_uuid ≠ ""
      · exact Or.inr ⟨rfl, Or.inl (stepRun_of_dir hty f bp hsk hdir)⟩
      · by_cases hurl : t.url = ""
        · exact Or.inl (stepRun_of_ign hty f bp hsk hdir hurl)
        · by_cases hf : f t
          · exact Or.inr ⟨rfl, Or.inr (Or.inl ⟨hf, stepRun_of_leaf_ok hty bp hsk hdir hurl hf⟩)⟩
          · exact Or.inr ⟨rfl, Or.inr (Or.inr ⟨by simp [hf],
              stepRun_of_leaf_fail hty bp hsk hdir hurl (by simp [hf])⟩)⟩

theorem step_records_mem (f : Toc → Bool) (bp : String) (s : RunState) (t : Toc)
    {r : ProgressItem} (h : r ∈ s.records) : r ∈ (stepRun f bp s t).records := by
  rcases stepRun_split f bp s t with heq | ⟨hsk, heq | ⟨hf, heq⟩ | ⟨hf, heq⟩⟩ <;>
    simp [heq, h]

theorem fold_records_mem (f : Toc → Bool) (bp : String) (l : List Toc) :
    ∀ (s : RunState) (r : ProgressItem), r ∈ s.records →
      r ∈ (l.foldl (stepRun f bp) s).records := by
  induction l with
  | nil => intro s r h; exact h
  | cons t l ih => intro s r h; exact ih _ r (step_records_mem f bp s t h)

/-- Every record so far is present in the resolution map, every reported
failure is present in the resolution map, and no record carries the uuid of a
reported failure. -/
theorem fold_err_inv (f : Toc → Bool) (bp : String) (l : List Toc) :
    ∀ (s : RunState),
    (∀ r ∈ s.records, (uget s.map r.toc.uuid).isSome) →
    (∀ p ∈ s.errInfo, (uget s.map p.toc.uuid).isSome) →
    (∀ p ∈ s.errInfo, ∀ r ∈ s.records, r.toc.uuid ≠ p.toc.uuid) →
    (∀ r ∈ (l.foldl (stepRun f bp) s).records,
      (uget (l.foldl (stepRun f bp) s).map r.toc.uuid).isSome) ∧
    (∀ p ∈ (l.foldl (stepRun f bp) s).errInfo,
      (uget (l.foldl (stepRun f bp) s).map p.toc.uuid).isSome) ∧
    (∀ p ∈ (l.foldl (stepRun f bp) s).errInfo,
      ∀ r ∈ (l.foldl (stepRun f bp) s).records, r.toc.uuid ≠ p.toc.uuid) := by
  induction l with
  | nil => intro s h1 h2 h3; exact ⟨h1, h2, h3⟩
  | cons t l ih =>
    intro s h1 h2 h3
    refine ih (stepRun f bp s t) ?_ ?_ ?_ <;>
      rcases stepRun_split f bp s t with heq | ⟨hsk, heq | ⟨hf, heq⟩ | ⟨hf, heq⟩⟩
    · rw [heq]; exact h1
    · rw [heq]
      intro r hr
      simp only [List.mem_append, List.mem_singleton] at hr
      rcases hr with hr | rfl
      · exact uget_uset_isSome_mono (h1 r hr) _ _
      · simp [dirEntry_toc, uget_uset_self]
    · rw [heq]
      intro r hr
      simp only [List.mem_append, List.mem_singleton] at hr
      rcases hr with hr | rfl
      · exact uget_uset_isSome_mono (h1 r hr) _ _
      · simp [leafEntry_toc, uget_uset_self]
    · rw [heq]
      intro r hr
      exact uget_uset_isSome_mono (h1 r hr) _ _
    · rw [heq]; exact h2
    · rw [heq]
      intro p hp
      exact uget_uset_isSome_mono (h2 p hp) _ _
    · rw [heq]
      intro p hp
      exact uget_uset_isSome_mono (h2 p hp) _ _
    · rw [heq]
      intro p hp
      simp only [List.mem_append, List.mem_singleton] at hp
      rcases hp with hp | rfl
      · exact uget_uset_isSome_mono (h2 p hp) _ _
      · simp [leafEntry_toc, uget_uset_self]
    · rw [heq]; exact h3
    · rw [heq]
      intro p hp r hr
      simp only [List.mem_append, List.mem_singleton] at hr
      rcases hr with hr | rfl
      · exact h3 p hp r hr
      · rw [dirEntry_toc]
        intro hcontra
        have := h2 p hp
        rw [← hcontra, hsk] at this
        simp at this
    · rw [heq]
      intro p hp r hr
      simp only [List.mem_append, List.mem_singleton] at hr
      rcases hr with hr | rfl
      · exact h3 p hp r hr
      · rw [leafEntry_toc]
        intro hcontra
        have := h2 p hp
        rw [← hcontra, hsk] at this
        simp at this
    · rw [heq]
      intro p hp r hr
      simp only [List.mem_append, List.mem_singleton] at hp
      rcases hp with hp | rfl
      · exact h3 p hp r hr
      · rw [leafEntry_toc]
        intro hcontra
        have := h1 r hr
        rw [hcontra, hsk] at this
        simp at this

/-- A record with an already-present uuid must predate the rest of the pass. -/
theorem fold_records_stable (f : Toc → Bool) (bp : String) (l : List Toc) :
    ∀ (s : RunState) (u : String), (uget s.map u).isSome →
      ∀ r ∈ (l.foldl (stepRun f bp) s).records, r.toc.uuid = u → r ∈ s.records := by
  induction l with
  | nil => intro s u _ r hr _; exact hr
  | cons t l ih =>
    intro s u hs r hr hu
    have hs' : (uget (stepRun f bp s t).map u).isSome := by
      rw [stepRun_map]
      obtain ⟨p, hp⟩ := Option.isSome_iff_exists.mp hs
      rw [stepMap_preserve hp t]
      rfl
    have hr' := ih (stepRun f bp s t) u hs' r hr hu
    rcases stepRun_split f bp s t with heq | ⟨hsk, heq | ⟨hf, heq⟩ | ⟨hf, heq⟩⟩ <;>
      rw [heq] at hr'
    · exact hr'
    · simp only [List.mem_append, List.mem_singleton] at hr'
      rcases hr' with hr' | rfl
      · exact hr'
      · exfalso
        simp only [dirEntry_toc, leafEntry_toc] at hu
        rw [← hu, hsk] at hs
        simp at hs
    · simp only [List.mem_append, List.mem_singleton] at hr'
      rcases hr' with hr' | rfl
      · exact hr'
      · exfalso
        simp only [dirEntry_toc, leafEntry_toc] at hu
        rw [← hu, hsk] at hs
        simp at hs
    · exact hr'

theorem fold_count (f : Toc → Bool) (bp : String) (l : List Toc) :
    ∀ (s : RunState),
      (l.foldl (stepRun f bp) s).records.length + (l.foldl (stepRun f bp) s).errInfo.length ≤
        s.records.length + s.errInfo.length + l.length := by
  induction l with
  | nil => intro s; simp
  | cons t l ih =>
    intro s
    have h := ih (stepRun f bp s t)
    have hstep : (stepRun f bp s t).records.length + (stepRun f bp s t).errInfo.length ≤
        s.records.length + s.errInfo.length + 1 := by
      rcases stepRun_split f bp s t with heq | ⟨hsk, heq | ⟨hf, heq⟩ | ⟨hf, heq⟩⟩ <;>
        simp [heq] <;> omega
    simp only [List.foldl_cons, List.length_cons]
    omega

/-- The failure report lists exactly the fetched-and-failed nodes, in order. -/
theorem fold_err_fetch (f : Toc → Bool) (bp : String) (l : List Toc) :
    ∀ (s : RunState),
      s.errInfo.map ProgressItem.toc = s.fetches.filter (fun t => !(f t)) →
      (l.foldl (stepRun f bp) s).errInfo.map ProgressItem.toc =
        (l.foldl (stepRun f bp) s).fetches.filter (fun t => !(f t)) := by
  induction l with
  | nil => intro s h; exact h
  | cons t l ih =>
    intro s h
    refine ih (stepRun f bp s t) ?_
    rcases stepRun_split f bp s t with heq | ⟨hsk, heq | ⟨hf, heq⟩ | ⟨hf, heq⟩⟩
    · rw [heq]; exact h
    · rw [heq]; exact h
    · rw [heq]
      simp [List.filter_append, hf, h]
    · rw [heq]
      simp [List.filter_append, hf, h, leafEntry_toc]

/-! ### Seeding lemmas -/

theorem seedFold_lookup (R : List ProgressItem) :
    ∀ (m0 : UMap) (u : String) (p : ProgressItem),
      uget (R.foldl (fun m r => uset m r.toc.uuid r) m0) u = some p →
      (p ∈ R ∧ p.toc.uuid = u) ∨ uget m0 u = some p := by
  induction R with
  | nil => intro m0 u p h; exact Or.inr h
  | cons r R ih =>
    intro m0 u p h
    rcases ih _ u p h with ⟨hm, he⟩ | h0
    · exact Or.inl ⟨List.mem_cons_of_mem _ hm, he⟩
    · by_cases hk : r.toc.uuid = u
      · subst hk
        rw [uget_uset_self] at h0
        injection h0 with h0
        subst h0
        exact Or.inl ⟨List.mem_cons_self _ _, rfl⟩
      · rw [uget_uset_ne _ _ _ _ hk] at h0
        exact Or.inr h0

theorem seed_lookup {R : List ProgressItem} {u : String} {p : ProgressItem}
    (h : uget (seedOf R) u = some p) : p ∈ R ∧ p.toc.uuid = u := by
  rcases seedFold_lookup R [] u p h with h | h
  · exact h
  · simp [uget] at h

theorem uset_fold_presence (R : List ProgressItem) :
    ∀ (m0 : UMap) (u : String), (uget m0 u).isSome →
      (uget (R.foldl (fun m r => uset m r.toc.uuid r) m0) u).isSome := by
  induction R with
  | nil => intro m0 u h; exact h
  | cons r R ih => intro m0 u h; exact ih _ u (uget_uset_isSome_mono h _ _)

theorem seed_isSome_of_mem {R : List ProgressItem} {r : ProgressItem} (h : r ∈ R) :
    (uget (seedOf R) r.toc.uuid).isSome := by
  have main : ∀ (R2 : List ProgressItem) (m0 : UMap), ∀ r2 ∈ R2,
      (uget (R2.foldl (fun m x => uset m x.toc.uuid x) m0) r2.toc.uuid).isSome := by
    intro R2
    induction R2 with
    | nil => intro m0 r2 h2; simp at h2
    | cons a R2 ih =>
      intro m0 r2 h2
      rcases List.mem_cons.mp h2 with rfl | h2
      · exact uset_fold_presence R2 _ _ (by rw [uget_uset_self]; rfl)
      · exact ih _ r2 h2
  exact main R [] r h

theorem step_records_in_map (f : Toc → Bool) (bp : String) {s : RunState} (t : Toc)
    (h : ∀ r ∈ s.records, (uget s.map r.toc.uuid).isSome) :
    ∀ r ∈ (stepRun f bp s t).records, (uget (stepRun f bp s t).map r.toc.uuid).isSome := by
  rcases stepRun_split f bp s t with heq | ⟨hsk, heq | ⟨hf, heq⟩ | ⟨hf, heq⟩⟩ <;> rw [heq]
  · exact h
  · intro r hr
    simp only [List.mem_append, List.mem_singleton] at hr
    rcases hr with hr | rfl
    · exact uget_uset_isSome_mono (h r hr) _ _
    · simp [dirEntry_toc, uget_uset_self]
  · intro r hr
    simp only [List.mem_append, List.mem_singleton] at hr
    rcases hr with hr | rfl
    · exact uget_uset_isSome_mono (h r hr) _ _
    · simp [leafEntry_toc, uget_uset_self]
  · intro r hr
    exact uget_uset_isSome_mono (h r hr) _ _

/-- The heart of C1: run the same node list once with outcome oracle `f` from
an empty map, and once more with any oracle `g` from the map seeded with the
first run's records; the second run's fetch attempts are exactly the first
run's failed fetches, in order. -/
theorem parallel_fetches (f g : Toc → Bool) (bp bp2 : String) (R : List ProgressItem)
    (l : List Toc) :
    ∀ (s1 s2 : RunState),
    (∀ r ∈ s1.records, (uget s1.map r.toc.uuid).isSome) →
    (∀ u, (uget s2.map u).isSome = ((uget s1.map u).isSome || (uget (seedOf R) u).isSome)) →
    R = (l.foldl (stepRun f bp) s1).records →
    ∃ d1 d2, (l.foldl (stepRun f bp) s1).fetches = s1.fetches ++ d1 ∧
      (l.foldl (stepRun g bp2) s2).fetches = s2.fetches ++ d2 ∧
      d2 = d1.filter (fun x => !(f x)) := by
  induction l with
  | nil =>
    intro s1 s2 _ _ _
    exact ⟨[], [], by simp, by simp, rfl⟩
  | cons t l ih =>
    intro s1 s2 hrec hmap hfin
    have hrec' := step_records_in_map f bp t hrec
    have hmap' : ∀ u, (uget (stepRun g bp2 s2 t).map u).isSome =
        ((uget (stepRun f bp s1 t).map u).isSome || (uget (seedOf R) u).isSome) := by
      intro u
      rw [stepRun_map, stepRun_map]
      by_cases hu : t.uuid = u
      · subst hu
        rw [stepMap_self_isSome, stepMap_self_isSome, hmap]
        cases (uget s1.map t.uuid).isSome <;> cases inserts t <;>
          cases (uget (seedOf R) t.uuid).isSome <;> rfl
      · rw [stepMap_ne hu, stepMap_ne hu, hmap]
    have hfin' : R = (l.foldl (stepRun f bp) (stepRun f bp s1 t)).records := by
      rw [hfin]
      rfl
    obtain ⟨d1, d2, h1, h2, hd⟩ := ih (stepRun f bp s1 t) (stepRun g bp2 s2 t) hrec' hmap' hfin'
    have hdelta : ∃ dl1 dl2, (stepRun f bp s1 t).fetches = s1.fetches ++ dl1 ∧
        (stepRun g bp2 s2 t).fetches = s2.fetches ++ dl2 ∧
        dl2 = dl1.filter (fun x => !(f x)) := by
      cases hty : t.type with
      | none =>
        rw [stepRun_of_none hty, stepRun_of_none hty]
        exact ⟨[], [], by simp, by simp, rfl⟩
      | some ty =>
        by_cases h1s : (uget s1.map t.uuid).isSome
        · have h2s : (uget s2.map t.uuid).isSome := by rw [hmap]; simp [h1s]
          rw [stepRun_of_skip hty f bp h1s, stepRun_of_skip hty g bp2 h2s]
          exact ⟨[], [], by simp, by simp, rfl⟩
        · have h1none : uget s1.map t.uuid = none := Option.not_isSome_iff_eq_none.mp h1s
          by_cases hseed : (uget (seedOf R) t.uuid).isSome
          · have h2s : (uget s2.map t.uuid).isSome := by rw [hmap]; simp [hseed]
            rw [stepRun_of_skip hty g bp2 h2s]
            by_cases hdir : lowerStr ty = "title" ∨ t.child_uuid ≠ ""
            · rw [stepRun_of_dir hty f bp h1none hdir]
              exact ⟨[], [], by simp, by simp, rfl⟩
            · by_cases hurl : t.url = ""
              · rw [stepRun_of_ign hty f bp h1none hdir hurl]
                exact ⟨[], [], by simp, by simp, rfl⟩
              · have hft : f t = true := by
                  by_contra hft
                  have hft' : f t = false := by simpa using hft
                  have hstep := stepRun_of_leaf_fail hty bp h1none hdir hurl hft'
                  obtain ⟨q, hq⟩ := Option.isSome_iff_exists.mp hseed
                  obtain ⟨hqR, hqu⟩ := seed_lookup hq
                  have hpres : (uget (stepRun f bp s1 t).map t.uuid).isSome := by
                    rw [hstep]
                    simp [uget_uset_self]
                  have hqmem : q ∈ (l.foldl (stepRun f bp) (stepRun f bp s1 t)).records := by
                    rw [← hfin']
                    exact hqR
                  have hq1 := fold_records_stable f bp l (stepRun f bp s1 t) t.uuid hpres
                    q hqmem hqu
                  rw [hstep] at hq1
                  have hpr := hrec q hq1
                  rw [hqu, h1none] at hpr
                  simp at hpr
                rw [stepRun_of_leaf_ok hty bp h1none hdir hurl hft]
                exact ⟨[t], [], by simp, by simp, by simp [hft]⟩
          · have h2none : uget s2.map t.uuid = none := by
              apply Option.not_isSome_iff_eq_none.mp
              rw [hmap]
              simp [h1s, hseed]
            by_cases hdir : lowerStr ty = "title" ∨ t.child_uuid ≠ ""
            · rw [stepRun_of_dir hty f bp h1none hdir, stepRun_of_dir hty g bp2 h2none hdir]
              exact ⟨[], [], by simp, by simp, rfl⟩
            · by_cases hurl : t.url = ""
              · rw [stepRun_of_ign hty f bp h1none hdir hurl,
                  stepRun_of_ign hty g bp2 h2none hdir hurl]
                exact ⟨[], [], by simp, by simp, rfl⟩
              · have hft : f t = false := by
                  by_contra hft2
                  have hft' : f t = true := by simpa using hft2
                  have hstep := stepRun_of_leaf_ok hty bp h1none hdir hurl hft'
                  have hmem : leafEntry s1.map t ∈ (stepRun f bp s1 t).records := by
                    rw [hstep]
                    simp
                  have hmemR : leafEntry s1.map t ∈ R := by
                    rw [hfin']
                    exact fold_records_mem f bp l _ _ hmem
                  have hsd := seed_isSome_of_mem hmemR
                  rw [leafEntry_toc] at hsd
                  exact hseed hsd
                rw [stepRun_of_leaf_fail hty bp h1none hdir hurl hft]
                by_cases hg : g t
                · rw [stepRun_of_leaf_ok hty bp2 h2none hdir hurl hg]
                  exact ⟨[t], [t], by simp, by simp, by simp [hft]⟩
                · rw [stepRun_of_leaf_fail hty bp2 h2none hdir hurl (by simp [hg])]
                  exact ⟨[t], [t], by simp, by simp, by simp [hft]⟩
    obtain ⟨dl1, dl2, hdl1, hdl2, hdl⟩ := hdelta
    refine ⟨dl1 ++ d1, dl2 ++ d2, ?_, ?_, ?_⟩
    · simp only [List.foldl_cons]
      rw [h1, hdl1, List.append_assoc]
    · simp only [List.foldl_cons]
      rw [h2, hdl2, List.append_assoc]
    · rw [hdl, hd, List.filter_append]

/-! ### C1: failed fetches are unrecorded and retried -/

/-- C1.  Run `main` from an empty prior store.  Then: (i) the failure report
lists exactly the fetched-and-failed leaf nodes, in order; (ii) no persisted
record carries the uuid of a failed node, (iii) hence the seeded skip set of
the next run does not contain a failed node; and (iv) a subsequent run from
the resulting store attempts to fetch exactly the failed nodes (spec-modelled
`ProgressBar`: `updateProgress` persists only successes). -/
theorem fetch_failure_unrecorded_and_retried (dist : String) (info : IKnowledgeBaseInfo)
    (f g : Toc → Bool) (b : Nat) (ns : List Toc) (hid : info.bookId = some b)
    (hb : b ≠ 0) (htoc : info.tocList = some ns) (hns : ns ≠ []) :
    ∃ r1 r2 : RunState,
      mainRun dist info [] f = (.ok (), r1) ∧
      mainRun dist info r1.records g = (.ok (), r2) ∧
      r1.errInfo.map ProgressItem.toc = r1.fetches.filter (fun t => !(f t)) ∧
      (∀ p ∈ r1.errInfo, ∀ r ∈ r1.records, r.toc.uuid ≠ p.toc.uuid) ∧
      (∀ p ∈ r1.errInfo, uget (seedOf r1.records) p.toc.uuid = none) ∧
      r2.fetches = r1.fetches.filter (fun t => !(f t)) := by
  have hlen0 : ns.length ≠ 0 := fun h => hns (List.length_eq_zero.mp h)
  set bp := dist ++ "/" ++ toString b with hbp
  set r1 : RunState := ns.foldl (stepRun f bp) (initRun [] [bp]) with hr1
  have run1 : mainRun dist info [] f = (.ok (), r1) := by
    rw [mainRun, hid]
    simp only [htoc]
    rw [if_neg hb, if_neg hns, if_neg (by simpa using fun h => hlen0 h.symm)]
    simp [initRun, hr1]
  have hinv := fold_err_inv f bp ns (initRun [] [bp])
    (by simp [initRun]) (by simp [initRun]) (by simp [initRun])
  have herrf := fold_err_fetch f bp ns (initRun [] [bp]) (by simp [initRun])
  rw [← hr1] at hinv herrf
  have hseednone : ∀ p ∈ r1.errInfo, uget (seedOf r1.records) p.toc.uuid = none := by
    intro p hp
    cases h : uget (seedOf r1.records) p.toc.uuid with
    | none => rfl
    | some q =>
      obtain ⟨hqR, hqu⟩ := seed_lookup h
      exact absurd hqu (hinv.2.2 p hp q hqR)
  have hcount := fold_count f bp ns (initRun [] [bp])
  rw [← hr1] at hcount
  simp only [initRun, List.length_nil] at hcount
  by_cases hcomp : r1.records.length = ns.length
  · have herr0 : r1.errInfo = [] := by
      apply List.length_eq_zero.mp
      omega
    have hfil : r1.fetches.filter (fun t => !(f t)) = [] := by
      rw [← herrf]
      simp [herr0]
    have run2 : mainRun dist info r1.records g = (.ok (), initRun r1.records [bp]) := by
      rw [mainRun, hid]
      simp only [htoc]
      rw [if_neg hb, if_neg hns, if_pos hcomp]
    refine ⟨r1, initRun r1.records [bp], run1, run2, herrf, hinv.2.2, hseednone, ?_⟩
    rw [hfil]
    rfl
  · have hle : r1.records.length ≤ ns.length := by omega
    have hlt : r1.records.length < ns.length := lt_of_le_of_ne hle hcomp
    have hseedeq : (if 0 < r1.records.length ∧ r1.records.length < ns.length
        then seedOf r1.records else []) = seedOf r1.records := by
      by_cases h0 : 0 < r1.records.length
      · rw [if_pos ⟨h0, hlt⟩]
      · have hz : r1.records = [] := by
          apply List.length_eq_zero.mp
          omega
        rw [if_neg (by simp [hz]), hz]
        rfl
    have run2 : mainRun dist info r1.records g =
        (.ok (), ns.foldl (stepRun g bp) ⟨seedOf r1.records, r1.records, [], 0, 0, [], [bp]⟩) := by
      rw [mainRun, hid]
      simp only [htoc]
      rw [if_neg hb, if_neg hns, if_neg hcomp]
      rw [hseedeq]
    have hpar := parallel_fetches f g bp bp r1.records ns (initRun [] [bp])
      ⟨seedOf r1.records, r1.records, [], 0, 0, [], [bp]⟩
      (by simp [initRun]) (by intro u; simp [initRun, uget]) rfl
    obtain ⟨d1, d2, h1, h2, hd⟩ := hpar
    refine ⟨r1, _, run1, run2, herrf, hinv.2.2, hseednone, ?_⟩
    have hf1 : r1.fetches = d1 := by
      rw [hr1, h1]
      rfl
    rw [h2, hd, hf1]
    rfl

/-- Witness for C1 at a concrete two-node book whose leaf fetch fails. -/
theorem fetch_failure_witness :
    ∃ r1 r2 : RunState,
      mainRun "d" ⟨some 1, some "s", some [⟨"A", "", "", "Intro", some "title", ""⟩,
          ⟨"B", "A", "", "Hello", some "doc", "x1"⟩], some "n", some ""⟩ []
          (fun t => t.uuid != "B") = (.ok (), r1) ∧
      mainRun "d" ⟨some 1, some "s", some [⟨"A", "", "", "Intro", some "title", ""⟩,
          ⟨"B", "A", "", "Hello", some "doc", "x1"⟩], some "n", some ""⟩ r1.records
          (fun _ => true) = (.ok (), r2) ∧
      r1.errInfo.map ProgressItem.toc =
        r1.fetches.filter (fun t => !((fun t => t.uuid != "B") t)) ∧
      (∀ p ∈ r1.errInfo, ∀ r ∈ r1.records, r.toc.uuid ≠ p.toc.uuid) ∧
      (∀ p ∈ r1.errInfo, uget (seedOf r1.records) p.toc.uuid = none) ∧
      r2.fetches = r1.fetches.filter (fun t => !((fun t => t.uuid != "B") t)) :=
  fetch_failure_unrecorded_and_retried "d"
    ⟨some 1, some "s", some [⟨"A", "", "", "Intro", some "title", ""⟩,
      ⟨"B", "A", "", "Hello", some "doc", "x1"⟩], some "n", some ""⟩
    (fun t => t.uuid != "B") (fun _ => true) 1
    [⟨"A", "", "", "Intro", some "title", ""⟩, ⟨"B", "A", "", "Hello", some "doc", "x1"⟩]
    rfl (by decide) rfl (by decide)

/-! ### Support for resume idempotence (C2) -/

/-- Left-biased choice, the lookup of a two-layer map. -/
def oor : Option ProgressItem → Option ProgressItem → Option ProgressItem
  | some x, _ => some x
  | none, b => b

theorem processToc_app (m : UMap) (l1 l2 : List Toc) :
    processToc m (l1 ++ l2) = processToc (processToc m l1) l2 := by
  simp [processToc, List.foldl_append]

theorem mapPass_split (ns : List Toc) (a bn : Nat) (h : a ≤ bn) :
    processToc [] (ns.take bn) =
      processToc (processToc [] (ns.take a)) ((ns.take bn).drop a) := by
  conv_lhs => rw [← List.take_append_drop a (ns.take bn)]
  rw [processToc_app, List.take_take, min_eq_left h]

theorem stepMap_changed {m : UMap} {t : Toc} {u : String}
    (h : uget (stepMap m t) u ≠ uget m u) : t.uuid = u := by
  by_contra hne
  exact h (stepMap_ne hne m)

theorem processToc_changed : ∀ (L : List Toc) (m : UMap) (u : String),
    uget (processToc m L) u ≠ uget m u → ∃ t ∈ L, t.uuid = u := by
  intro L
  induction L with
  | nil => intro m u h; exact absurd rfl h
  | cons t L ih =>
    intro m u h
    by_cases hstep : uget (processToc (stepMap m t) L) u = uget (stepMap m t) u
    · have : uget (stepMap m t) u ≠ uget m u := by
        intro hcontra
        apply h
        calc uget (processToc m (t :: L)) u
            = uget (processToc (stepMap m t) L) u := rfl
          _ = uget (stepMap m t) u := hstep
          _ = uget m u := hcontra
      exact ⟨t, List.mem_cons_self _ _, stepMap_changed this⟩
    · obtain ⟨t2, ht2, hu2⟩ := ih (stepMap m t) u hstep
      exact ⟨t2, List.mem_cons_of_mem _ ht2, hu2⟩

theorem slice_mem_get (ns : List Toc) (i k : Nat) {t : Toc}
    (h : t ∈ (ns.take k).drop i) : ∃ a, i ≤ a ∧ ns.get? a = some t := by
  obtain ⟨j, hj⟩ := List.mem_iff_get?.mp h
  rw [List.get?_drop] at hj
  have hlt : i + j < (ns.take k).length := by
    by_contra hge
    rw [List.get?_eq_none.mpr (le_of_not_lt hge)] at hj
    simp at hj
  have hltk : i + j < k := lt_of_lt_of_le hlt (by simp [List.length_take])
  rw [List.get?_take hltk] at hj
  exact ⟨i + j, by omega, hj⟩

/-- Every binding of the map after the first `i` nodes is keyed by its entry's
own uuid and its entry's node sits at an index below `i`. -/
def AnchoredLt (ns : List Toc) (m : UMap) (i : Nat) : Prop :=
  ∀ kv ∈ m, kv.2.toc.uuid = kv.1 ∧ ∃ a, a < i ∧ ns.get? a = some kv.2.toc

theorem stepMap_mem {m : UMap} {t : Toc} {kv : String × ProgressItem}
    (h : kv ∈ stepMap m t) :
    kv ∈ m ∨ kv = (t.uuid, dirEntry m t) ∨ kv = (t.uuid, leafEntry m t) := by
  cases hty : t.type with
  | none => rw [stepMap_of_none hty] at h; exact Or.inl h
  | some ty =>
    by_cases hsk : (uget m t.uuid).isSome
    · rw [stepMap_of_skip hty hsk] at h; exact Or.inl h
    · have hnone : uget m t.uuid = none := Option.not_isSome_iff_eq_none.mp hsk
      by_cases hdir : lowerStr ty = "title" ∨ t.child_uuid ≠ ""
      · rw [stepMap_of_dir hty hnone hdir] at h
        rcases List.mem_cons.mp h with h | h
        · exact Or.inr (Or.inl h)
        · exact Or.inl h
      · by_cases hurl : t.url = ""
        · rw [stepMap_of_ign hty hnone hdir hurl] at h; exact Or.inl h
        · rw [stepMap_of_leaf hty hnone hdir hurl] at h
          rcases List.mem_cons.mp h with h | h
          · exact Or.inr (Or.inr h)
          · exact Or.inl h

theorem anchored_mapPass (ns : List Toc) : ∀ i, AnchoredLt ns (processToc [] (ns.take i)) i := by
  intro i
  induction i with
  | zero => intro kv hkv; simp [processToc] at hkv
  | succ i ih =>
    cases hget : ns.get? i with
    | none =>
      have ht : ns.take (i + 1) = ns.take i := by
        rw [List.take_succ, ← List.get?_eq_getElem?, hget]
        simp
      rw [ht]
      intro kv hkv
      obtain ⟨h1, a, ha, h2⟩ := ih kv hkv
      exact ⟨h1, a, by omega, h2⟩
    | some t =>
      have ht : ns.take (i + 1) = ns.take i ++ [t] := by
        rw [List.take_succ, ← List.get?_eq_getElem?, hget]
        rfl
      rw [ht, processToc_app]
      intro kv hkv
      have hone : processToc (processToc [] (ns.take i)) [t] =
          stepMap (processToc [] (ns.take i)) t := rfl
      rw [hone] at hkv
      rcases stepMap_mem hkv with h | h | h
      · obtain ⟨h1, a, ha, h2⟩ := ih kv h
        exact ⟨h1, a, by omega, h2⟩
      · subst h
        exact ⟨rfl, i, by omega, hget⟩
      · subst h
        exact ⟨rfl, i, by omega, hget⟩

/-- Every persisted record's binding is in the final resolution map with the
record itself as value. -/
theorem fold_records_val (f : Toc → Bool) (bp : String) (l : List Toc) :
    ∀ (s : RunState), (∀ r ∈ s.records, uget s.map r.toc.uuid = some r) →
      ∀ r ∈ (l.foldl (stepRun f bp) s).records,
        uget (l.foldl (stepRun f bp) s).map r.toc.uuid = some r := by
  induction l with
  | nil => intro s h; exact h
  | cons t l ih =>
    intro s h
    refine ih (stepRun f bp s t) ?_
    rcases stepRun_split f bp s t with heq | ⟨hsk, heq | ⟨hf, heq⟩ | ⟨hf, heq⟩⟩ <;> rw [heq]
    · exact h
    · intro r hr
      simp only [List.mem_append, List.mem_singleton] at hr
      rcases hr with hr | rfl
      · have hv := h r hr
        have hne : t.uuid ≠ r.toc.uuid := by
          intro hcontra
          rw [← hcontra, hsk] at hv
          simp at hv
        rw [uget_uset_ne _ _ _ _ hne]
        exact hv
      · simp only [dirEntry_toc]
        exact uget_uset_self _ _ _
    · intro r hr
      simp only [List.mem_append, List.mem_singleton] at hr
      rcases hr with hr | rfl
      · have hv := h r hr
        have hne : t.uuid ≠ r.toc.uuid := by
          intro hcontra
          rw [← hcontra, hsk] at hv
          simp at hv
        rw [uget_uset_ne _ _ _ _ hne]
        exact hv
      · simp only [leafEntry_toc]
        exact uget_uset_self _ _ _
    · intro r hr
      have hv := h r hr
      have hne : t.uuid ≠ r.toc.uuid := by
        intro hcontra
        rw [← hcontra, hsk] at hv
        simp at hv
      rw [uget_uset_ne _ _ _ _ hne]
      exact hv

theorem fold_run_map (f : Toc → Bool) (bp : String) (l : List Toc) :
    ∀ (s : RunState), (l.foldl (stepRun f bp) s).map = processToc s.map l := by
  induction l with
  | nil => intro s; rfl
  | cons t l ih =>
    intro s
    calc (List.foldl (stepRun f bp) s (t :: l)).map
        = (List.foldl (stepRun f bp) (stepRun f bp s t) l).map := rfl
      _ = processToc (stepRun f bp s t).map l := ih _
      _ = processToc (stepMap s.map t) l := by rw [stepRun_map]

/-- The ordering invariant of the data model: a node's parent, when present in
the sequence at all, appears strictly earlier. -/
def OrderInv (ns : List Toc) : Prop :=
  ∀ (a b : Fin ns.length), (ns.get a).uuid = (ns.get b).parent_uuid → a < b

instance (ns : List Toc) : Decidable (OrderInv ns) := by
  unfold OrderInv
  infer_instance

theorem orderInv_lt {ns : List Toc} (h : OrderInv ns) {a b : Nat} {ta tb : Toc}
    (ha : ns.get? a = some ta) (hb : ns.get? b = some tb)
    (hu : ta.uuid = tb.parent_uuid) : a < b := by
  have ha' := List.get?_eq_some.mp ha
  have hb' := List.get?_eq_some.mp hb
  obtain ⟨hal, hae⟩ := ha'
  obtain ⟨hbl, hbe⟩ := hb'
  have := h ⟨a, hal⟩ ⟨b, hbl⟩ (by rw [hae, hbe]; exact hu)
  exact this

/-- Under the ordering invariant, the ancestor walk of a node of the sequence
always terminates over an anchored map, and every key it looks up is the
parent id of some node at an index not beyond the starting one. -/
theorem chainExists (ns : List Toc) (hOI : OrderInv ns) (m : UMap) (i : Nat)
    (hA : AnchoredLt ns m i) :
    ∀ s t, ns.get? s = some t → s ≤ i →
      ∃ ts ids ks, Chain m t ts ids ks ∧
        ∀ kk ∈ ks, ∃ a t2, a ≤ i ∧ ns.get? a = some t2 ∧ t2.parent_uuid = kk := by
  intro s
  induction s using Nat.strong_induction_on with
  | _ s ihs =>
    intro t hget hsi
    cases hpar : uget m t.parent_uuid with
    | none =>
      refine ⟨_, _, _, Chain.last hpar, ?_⟩
      intro kk hk
      rw [List.mem_singleton] at hk
      exact ⟨s, t, hsi, hget, hk.symm⟩
    | some p =>
      have hmem := uget_mem m _ p hpar
      obtain ⟨hkey, a, hai, hpa⟩ := hA _ hmem
      have has : a < s := orderInv_lt hOI hpa hget (by rw [hkey])
      obtain ⟨ts, ids, ks, hc, hks⟩ := ihs a has p.toc hpa (by omega)
      refine ⟨_, _, _, Chain.step hpar hc, ?_⟩
      intro kk hk
      rcases List.mem_cons.mp hk with rfl | hk
      · exact ⟨s, t, hsi, hget, rfl⟩
      · exact hks kk hk

/-! ### C2: resume idempotence -/

/-- C2.  For every node sequence satisfying the data model's ordering
invariant (a parent, when present at all, precedes its children), every
success oracle `f` and every prefix length `k`: seeding the resolution map by
replaying the records persisted by running the first `k` nodes from an empty
store, then processing the whole sequence, yields exactly the same resolution
map — the same entry, hence the same path, for every node id — as a single
uninterrupted pass over the whole sequence from the empty map. -/
theorem resume_idempotence (ns : List Toc) (f : Toc → Bool) (bp : String) (k : Nat)
    (hOI : OrderInv ns) :
    ∀ u, uget (processToc
        (seedOf (((ns.take k).foldl (stepRun f bp) (initRun [] [])).records)) ns) u
      = uget (processToc [] ns) u := by
  set R : List ProgressItem := ((ns.take k).foldl (stepRun f bp) (initRun [] [])).records
    with hR
  set S : UMap := seedOf R with hSdef
  have hrecval := fold_records_val f bp (ns.take k) (initRun [] []) (by simp [initRun])
  have hfm : ((ns.take k).foldl (stepRun f bp) (initRun [] [])).map
      = processToc [] (ns.take k) := by
    rw [fold_run_map]
    rfl
  rw [hfm] at hrecval
  have hS1 : ∀ u p, uget S u = some p → uget (processToc [] (ns.take k)) u = some p := by
    intro u p hup
    obtain ⟨hpR, hpu⟩ := seed_lookup hup
    have hv := hrecval p (hR ▸ hpR)
    rw [hpu] at hv
    exact hv
  have hA : ∀ i u, uget (processToc S (ns.take i)) u
      = oor (uget (processToc [] (ns.take i)) u) (uget S u) := by
    intro i
    induction i with
    | zero =>
      intro u
      simp [processToc, uget, oor]
    | succ i ihi =>
      intro u
      cases hget : ns.get? i with
      | none =>
        have ht : ns.take (i + 1) = ns.take i := by
          rw [List.take_succ, ← List.get?_eq_getElem?, hget]
          simp
        rw [ht]
        exact ihi u
      | some t =>
        have ht : ns.take (i + 1) = ns.take i ++ [t] := by
          rw [List.take_succ, ← List.get?_eq_getElem?, hget]
          rfl
        have hone : ∀ m : UMap, processToc m [t] = stepMap m t := fun m => rfl
        rw [ht, processToc_app, processToc_app, hone, hone]
        by_cases hu : t.uuid = u
        case neg =>
          rw [stepMap_ne hu, stepMap_ne hu]
          exact ihi u
        case pos =>
        subst hu
        cases hty : t.type with
        | none =>
          rw [stepMap_of_none hty, stepMap_of_none hty]
          exact ihi t.uuid
        | some ty =>
          by_cases h1s : (uget (processToc [] (ns.take i)) t.uuid).isSome
          · obtain ⟨p, hp⟩ := Option.isSome_iff_exists.mp h1s
            have h2 : uget (processToc S (ns.take i)) t.uuid = some p := by
              rw [ihi t.uuid, hp]
              rfl
            have h2s : (uget (processToc S (ns.take i)) t.uuid).isSome := by simp [h2]
            rw [stepMap_of_skip hty h1s, stepMap_of_skip hty h2s]
            exact ihi t.uuid
          · have h1none : uget (processToc [] (ns.take i)) t.uuid = none :=
              Option.not_isSome_iff_eq_none.mp h1s
            by_cases hseed : (uget S t.uuid).isSome
            · obtain ⟨p, hpS⟩ := Option.isSome_iff_exists.mp hseed
              have h2 : uget (processToc S (ns.take i)) t.uuid = some p := by
                rw [ihi t.uuid, h1none, hpS]
                rfl
              have h2s : (uget (processToc S (ns.take i)) t.uuid).isSome := by simp [h2]
              rw [stepMap_of_skip hty h2s, h2, hpS]
              cases hnew : uget (stepMap (processToc [] (ns.take i)) t) t.uuid with
              | none => rfl
              | some q =>
                have hq1 : uget (processToc [] (ns.take (i + 1))) t.uuid = some q := by
                  rw [ht, processToc_app, hone]
                  exact hnew
                by_cases hk : k ≤ i
                · exfalso
                  have hcontra : uget (processToc [] (ns.take i)) t.uuid = some p := by
                    rw [mapPass_split ns k i hk]
                    exact processToc_preserve (hS1 _ _ hpS) _
                  rw [h1none] at hcontra
                  simp at hcontra
                · have hik : i + 1 ≤ k := by omega
                  have hqk : uget (processToc [] (ns.take k)) t.uuid = some q := by
                    rw [mapPass_split ns (i + 1) k hik]
                    exact processToc_preserve hq1 _
                  rw [hS1 _ _ hpS] at hqk
                  injection hqk with hqk
                  rw [hqk]
                  rfl
            · have hSnone : uget S t.uuid = none := Option.not_isSome_iff_eq_none.mp hseed
              have h2none : uget (processToc S (ns.take i)) t.uuid = none := by
                rw [ihi t.uuid, h1none, hSnone]
                rfl
              have hagq : ∀ w, (∀ a t2, ns.get? a = some t2 → t2.uuid = w → a < i) →
                  uget (processToc S (ns.take i)) w = uget (processToc [] (ns.take i)) w := by
                intro w hw
                rw [ihi w]
                cases hMw : uget (processToc [] (ns.take i)) w with
                | some p2 => rfl
                | none =>
                  cases hSw : uget S w with
                  | none => rfl
                  | some p2 =>
                    exfalso
                    have hMk := hS1 _ _ hSw
                    by_cases hk : k ≤ i
                    · have hcontra : uget (processToc [] (ns.take i)) w = some p2 := by
                        rw [mapPass_split ns k i hk]
                        exact processToc_preserve hMk _
                      rw [hMw] at hcontra
                      simp at hcontra
                    · have hik : i ≤ k := by omega
                      have hchg : uget (processToc (processToc [] (ns.take i))
                          ((ns.take k).drop i)) w ≠ uget (processToc [] (ns.take i)) w := by
                        rw [← mapPass_split ns i k hik, hMk, hMw]
                        simp
                      obtain ⟨t2, ht2, hu2⟩ := processToc_changed _ _ _ hchg
                      obtain ⟨a, hai, hga⟩ := slice_mem_get ns i k ht2
                      have := hw a t2 hga hu2
                      omega
              by_cases hdir : lowerStr ty = "title" ∨ t.child_uuid ≠ ""
              · rw [stepMap_of_dir hty h1none hdir, stepMap_of_dir hty h2none hdir,
                  uget_uset_self, uget_uset_self]
                obtain ⟨ts, ids, ks, hc, hks⟩ := chainExists ns hOI
                  (processToc [] (ns.take i)) i (anchored_mapPass ns i) i t hget (le_refl i)
                have hagree : ∀ kk ∈ ks, uget (processToc S (ns.take i)) kk
                    = uget (processToc [] (ns.take i)) kk := by
                  intro kk hk
                  obtain ⟨a, t2, hai, hga, hpar2⟩ := hks kk hk
                  refine hagq kk ?_
                  intro b tb hgb hub
                  have := orderInv_lt hOI hgb hga (by rw [hub, hpar2])
                  omega
                have hc2 := chainAgree hc hagree
                have hde : dirEntry (processToc S (ns.take i)) t
                    = dirEntry (processToc [] (ns.take i)) t := by
                  unfold dirEntry
                  rw [climb_of_chain hc, climb_of_chain hc2]
                rw [hde, hSnone]
                rfl
              · by_cases hurl : t.url = ""
                · rw [stepMap_of_ign hty h1none hdir hurl,
                    stepMap_of_ign hty h2none hdir hurl]
                  exact ihi t.uuid
                · rw [stepMap_of_leaf hty h1none hdir hurl,
                    stepMap_of_leaf hty h2none hdir hurl, uget_uset_self, uget_uset_self]
                  have hpeq : uget (processToc S (ns.take i)) t.parent_uuid
                      = uget (processToc [] (ns.take i)) t.parent_uuid := by
                    refine hagq t.parent_uuid ?_
                    intro b tb hgb hub
                    exact orderInv_lt hOI hgb hget hub
                  have hle : leafEntry (processToc S (ns.take i)) t
                      = leafEntry (processToc [] (ns.take i)) t := by
                    unfold leafEntry
                    rw [hpeq]
                  rw [hle, hSnone]
                  rfl
  intro u
  have h := hA ns.length u
  rw [List.take_length] at h
  rw [h]
  cases hM : uget (processToc [] ns) u with
  | some p => rfl
  | none =>
    cases hS : uget S u with
    | none => rfl
    | some p =>
      exfalso
      have hMk := hS1 _ _ hS
      have hcontra : uget (processToc [] ns) u = some p := by
        conv_lhs => rw [show ns = ns.take k ++ ns.drop k from (List.take_append_drop k ns).symm]
        rw [processToc_app]
        exact processToc_preserve hMk _
      rw [hM] at hcontra
      simp at hcontra

/-- Witness for C2 at the concrete two-node book, with the leaf fetch failing
in the interrupted run, checked at the leaf's id. -/
theorem resume_idempotence_witness :
    uget (processToc (seedOf ((([⟨"A", "", "", "Intro", some "title", ""⟩,
          ⟨"B", "A", "", "Hello", some "doc", "x1"⟩].take 2).foldl
          (stepRun (fun t => t.uuid != "B") "d/1") (initRun [] [])).records))
        [⟨"A", "", "", "Intro", some "title", ""⟩, ⟨"B", "A", "", "Hello", some "doc", "x1"⟩]) "B"
      = uget (processToc [] [⟨"A", "", "", "Intro", some "title", ""⟩,
          ⟨"B", "A", "", "Hello", some "doc", "x1"⟩]) "B" :=
  resume_idempotence [⟨"A", "", "", "Intro", some "title", ""⟩,
    ⟨"B", "A", "", "Hello", some "doc", "x1"⟩] (fun t => t.uuid != "B") "d/1" 2 (by decide) "B"
